import Mathlib

/-!
Shallow embedding of the live filesystem-backed catalog in
`tiled/catalogs/files.py`: the shared Index data structure, the directory
Scanner (`Catalog.from_directory`), the change-event processor
(`_process_changes`), the MIME/reader resolution (`_reader_factory_for_file`)
and the watcher loop (`_watch`), together with theorems checking the
natural-language specification against this code.

Python dicts are modelled as association lists with dict semantics
(assignment replaces in place or appends; `pop` with no default raises
`KeyError` on a missing key). Python exceptions are modelled with `Except`.
-/

namespace Tiled

/-! ### Association lists with Python-dict semantics -/

/-- First-match lookup, like `d[k]` returning `Some` instead of raising. -/
def alistLookup {α β : Type} [DecidableEq α] : List (α × β) → α → Option β
  | [], _ => none
  | (k', v) :: rest, k => if k' = k then some v else alistLookup rest k

/-- Dict assignment `d[k] = v`: replace in place if present, else append
(Python dicts preserve insertion order). -/
def alistInsert {α β : Type} [DecidableEq α] : List (α × β) → α → β → List (α × β)
  | [], k, v => [(k, v)]
  | (k', v') :: rest, k, v =>
      if k' = k then (k, v) :: rest else (k', v') :: alistInsert rest k v

/-- Removal of a key, used to model `d.pop(k)` (the caller checks presence). -/
def alistErase {α β : Type} [DecidableEq α] : List (α × β) → α → List (α × β)
  | [], _ => []
  | (k', v') :: rest, k => if k' = k then rest else (k', v') :: alistErase rest k

/-! ### Data model

The Index (`files.py` line 85): a dict from tuples of path parts to
per-directory dicts ("node maps") of entries.  A subdirectory entry is
`functools.partial(CatalogInMemory, CachingMap(mapping))` where `mapping`
aliases `index[parts + (subdirectory,)]`; we model that aliasing by having
the entry carry the child path-key.  A readable-file entry is
`functools.partial(reader_class, str(path))`; reader factories are opaque
callables, modelled as string tags. -/

/-- A directory path key: tuple of path parts, `[]` is the root. -/
abbrev PathKey := List String

/-- An opaque reader-factory callable, modelled by a tag. -/
abbrev ReaderFactory := String

inductive Entry where
  | subdirectory (childPath : PathKey)
  | readableFile (reader : ReaderFactory) (filePath : String)
deriving DecidableEq

/-- A node map: dict from local name to entry. -/
abbrev NodeMap := List (String × Entry)

/-- The Index: dict from path key to node map. -/
abbrev Index := List (PathKey × NodeMap)

/-! ### MIME-type and reader resolution (`_reader_factory_for_file`) -/

/-- Python `pathlib` suffix splitting on `'.'`, over character lists. -/
def splitOnDot : List Char → List (List Char)
  | [] => [[]]
  | c :: rest =>
      let r := splitOnDot rest
      if c = '.' then [] :: r
      else
        match r with
        | [] => [[c]]
        | s :: ss => (c :: s) :: ss

/-- `pathlib.PurePath.suffixes` for a file name: empty if the name ends in
a dot; otherwise strip leading dots, split on dots, drop the stem, and
prefix each piece with a dot. -/
def suffixes (name : String) : List String :=
  let cs := name.toList
  if cs.getLast? = some '.' then []
  else ((splitOnDot (cs.dropWhile (· = '.'))).tail).map (fun s => String.mk ('.' :: s))

/-- Python `"".join(l)`: concatenation of a list of strings. -/
def concatAll : List String → String
  | [] => ""
  | s :: rest => s ++ concatAll rest

/-- `ext = "".join(path.suffixes)` (`files.py` line 225). -/
def extOf (name : String) : String := concatAll (suffixes name)

/-- `str(Path(root, filename))`, an opaque absolute-path tag. -/
def joinPath (dir : String) (parts : PathKey) (name : String) : String :=
  (parts ++ [name]).foldl (fun acc seg => acc ++ "/" ++ seg) dir

/-- `XLSX_MIME_TYPE`, imported from `tiled.structures.dataframe`.
Modelled from the spec: that module is not among the sources; the constant
is only a MIME-type key of the built-in default reader registry and its
exact value is immaterial to every claim. -/
def XLSX_MIME_TYPE : String := "application/x-xlsx"

/-- `Catalog.DEFAULT_READERS_BY_MIMETYPE` (`files.py` lines 38-50); the
`OneShotCachedMap` defers the imports of the reader classes, which has no
observable effect in this pure model, so the defaults are a plain mapping
from MIME type to the reader it would materialize. -/
def DEFAULT_READERS_BY_MIMETYPE : List (String × ReaderFactory) :=
  [("image/tiff", "TiffReader"),
   ("text/csv", "DataFrameAdapter.read_csv"),
   (XLSX_MIME_TYPE, "ExcelReader.from_file")]

/-- `collections.ChainMap(user, defaults)` lookup: user entries take
precedence over the defaults (`files.py` lines 74-77). -/
def chainLookup (user defaults : List (String × ReaderFactory)) (m : String) :
    Option ReaderFactory :=
  match alistLookup user m with
  | some r => some r
  | none => alistLookup defaults m

/-- The inputs threaded through the scan: the root directory path, the
user reader registry, the built-in defaults, the extension-override map,
and the host mimetype database `mimetypes.guess_type` (a collaborator,
modelled as a function from the path string). -/
structure ScanConfig where
  directory : String
  readersByMimetype : List (String × ReaderFactory)
  defaultReaders : List (String × ReaderFactory)
  mimetypesByFileExt : List (String × String)
  guessType : String → Option String

/-- The warning emitted by `warnings.warn` in `_reader_factory_for_file`
before raising `NoReaderAvailable`. -/
inductive ScanWarning where
  | unrecognizedExtension (path : String) (ext : String)
  | noReaderForMimetype (path : String) (mimetype : String)
deriving DecidableEq

/-- MIME resolution part of `_reader_factory_for_file` (lines 225-232):
extension-override map first, then `mimetypes.guess_type`. -/
def mimetypeOf (cfg : ScanConfig) (parts : PathKey) (name : String) : Option String :=
  match alistLookup cfg.mimetypesByFileExt (extOf name) with
  | some m => some m
  | none => cfg.guessType (joinPath cfg.directory parts name)

/-- `_reader_factory_for_file` (lines 224-255): resolve the MIME type, then
look the reader up in the chain map; on either failure warn and raise
`NoReaderAvailable`; on success return `functools.partial(reader_class, str(path))`. -/
def readerFactoryForFile (cfg : ScanConfig) (parts : PathKey) (name : String) :
    Except ScanWarning Entry :=
  let path := joinPath cfg.directory parts name
  match mimetypeOf cfg parts name with
  | none => .error (.unrecognizedExtension path (extOf name))
  | some mimetype =>
      match chainLookup cfg.readersByMimetype cfg.defaultReaders mimetype with
      | none => .error (.noReaderForMimetype path mimetype)
      | some reader => .ok (.readableFile reader path)

/-! ### Change events and `_process_changes` -/

inductive ChangeKind where
  | added
  | deleted
  | modified
deriving DecidableEq

/-- One `(kind, entry)` pair from `watcher.check()`.  `parentParts` and
`name` are `path.relative_to(directory).parent.parts` and `path.name`;
`isDir` is what `path.is_dir()` observes at processing time. -/
structure ChangeEvent where
  kind : ChangeKind
  parentParts : PathKey
  name : String
  isDir : Bool
deriving DecidableEq

/-- The Python exceptions `_process_changes` can raise. -/
inductive PyErr where
  | notImplementedError
  | typeError
  | keyError
deriving DecidableEq

/-- One iteration of the loop body of `_process_changes` (lines 202-221).

* `path.is_dir()` → `raise NotImplementedError`.
* `Change.added` → the source evaluates
  `_reader_factory_for_file(readers_by_mimetype, path)`, passing two
  arguments to a three-parameter function (`mimetypes_by_file_ext` is
  missing), so Python raises `TypeError` before any index mutation.
* `Change.deleted` → `index[parent_parts].pop(path.name)`: `KeyError` if
  the parent key or the name is absent, otherwise remove the entry.
* `Change.modified` → no-op. -/
def processChange (idx : Index) (ev : ChangeEvent) : Except PyErr Index :=
  if ev.isDir then .error .notImplementedError
  else
    match ev.kind with
    | .added => .error .typeError
    | .deleted =>
        match alistLookup idx ev.parentParts with
        | none => .error .keyError
        | some nm =>
            match alistLookup nm ev.name with
            | none => .error .keyError
            | some _ => .ok (alistInsert idx ev.parentParts (alistErase nm ev.name))
    | .modified => .ok idx

/-- `_process_changes` over a batch: mutations are in place, so an
exception propagates out of the loop leaving the changes already applied;
the second component is the uncaught exception, if any. -/
def processChanges (idx : Index) : List ChangeEvent → Index × Option PyErr
  | [] => (idx, none)
  | ev :: rest =>
      match processChange idx ev with
      | .ok idx' => processChanges idx' rest
      | .error e => (idx, some e)

/-! ### The watcher loop (`_watch`, lines 178-199) -/

/-- The watcher's mutable state: the backlog `queued_changes` and the
shared index it writes into. -/
structure WatchState where
  queued : List ChangeEvent
  index : Index
deriving DecidableEq

/-- One body of the `while not watcher_thread_kill_switch` loop, given the
observed truthiness of `initial_scan_complete` and the changes returned by
`watcher.check()`.  Note the source never clears `queued_changes` after
processing the backlog. -/
def watchIterate (s : WatchState) (scanComplete : Bool) (changes : List ChangeEvent) :
    WatchState × Option PyErr :=
  if scanComplete then
    if s.queued.isEmpty then
      let (idx2, e2) := processChanges s.index changes
      ({ s with index := idx2 }, e2)
    else
      let (idx1, e1) := processChanges s.index s.queued
      match e1 with
      | some e => ({ s with index := idx1 }, some e)
      | none =>
          let (idx2, e2) := processChanges idx1 changes
          ({ s with index := idx2 }, e2)
  else
    ({ queued := s.queued ++ changes, index := s.index }, none)

/-- What the watcher thread observes over a finite schedule of polls: each
`PollStep` gives the truthiness of the kill switch checked at the top of
the loop, of `initial_scan_complete`, and the changes collected by
`watcher.check()`. -/
structure PollStep where
  kill : Bool
  scanComplete : Bool
  changes : List ChangeEvent
deriving DecidableEq

/-- Run `_watch`'s loop over a schedule of polls.  Returns how many loop
bodies executed, the final watcher state, and the uncaught exception that
killed the thread, if any.  The loop stops at the first poll whose kill
switch reads true (checked before the body). -/
def watchRun (s : WatchState) : List PollStep → Nat × WatchState × Option PyErr
  | [] => (0, s, none)
  | step :: rest =>
      if step.kill then (0, s, none)
      else
        match watchIterate s step.scanComplete step.changes with
        | (s', none) =>
            let (n, s'', e) := watchRun s' rest
            (n + 1, s'', e)
        | (s', some e) => (1, s', some e)

/-! ### Catalog facade handles (`shutdown_watcher`, `new_variation`) -/

/-- The handles a `Catalog` facade instance carries (`__slots__` plus the
mapping/metadata from the in-memory base).  `killSwitch` models the
`watcher_thread_kill_switch` Python list: appending any object makes its
truthiness `true`. -/
structure CatalogFacade where
  killSwitch : List Unit
  index : Index
  readersByMimetype : List (String × ReaderFactory)
  metadata : List (String × String)
deriving DecidableEq

/-- `shutdown_watcher` (lines 172-175): append an object to the shared
kill-switch list. -/
def shutdownWatcher (c : CatalogFacade) : CatalogFacade :=
  { c with killSwitch := c.killSwitch ++ [()] }

/-- The truthiness `bool(watcher_thread_kill_switch)` observed by the
watcher loop. -/
def killObserved (c : CatalogFacade) : Bool := !c.killSwitch.isEmpty

/-- `new_variation` (lines 163-170) passes the same kill switch, reader
registry and index to the derived facade.  Modelled from the spec for the
base-class part: `CatalogInMemory.new_variation` (module
`tiled.catalogs.in_memory`, not among the sources) constructs the new
facade from exactly the keyword arguments it is handed, per spec §4.4
("derivation ... must preserve the shared Index, Reader Registry, and
Watcher-stop-signal reference"). -/
def newVariation (c : CatalogFacade) (metadata : List (String × String)) : CatalogFacade :=
  { killSwitch := c.killSwitch
    index := c.index
    readersByMimetype := c.readersByMimetype
    metadata := metadata }

/-! ### The directory tree and the initial scan (`from_directory`) -/

mutual
/-- A directory on disk: its file names and its subdirectories, in the
order `os.walk` yields them. -/
inductive FsTree where
  | node (files : List String) (subdirs : FsForest) : FsTree

/-- An ordered list of named subdirectories. -/
inductive FsForest where
  | nil : FsForest
  | cons (name : String) (tree : FsTree) (rest : FsForest) : FsForest
end

def FsTree.filesOf : FsTree → List String
  | .node files _ => files

def FsTree.subdirsOf : FsTree → FsForest
  | .node _ sds => sds

def forestNames : FsForest → List String
  | .nil => []
  | .cons d _ rest => d :: forestNames rest

/-- `index[parts][name] = entry`: assignment into the node map of `parts`.
During the walk the parent key always exists (`os.walk` is top-down and the
root key is created first); were it absent the source would raise
`KeyError`, which is unreachable here, so the total model leaves the index
unchanged in that case. -/
def indexSetEntry (idx : Index) (parts : PathKey) (name : String) (e : Entry) : Index :=
  match alistLookup idx parts with
  | some nm => alistInsert idx parts (alistInsert nm name e)
  | none => idx

/-- The subdirectory loop of the walk body (lines 108-114): for each
subdirectory, create its (empty) node map under its own path key and
register a subdirectory entry in the parent's node map. -/
def addSubdirs (parts : PathKey) : FsForest → Index → Index
  | .nil, idx => idx
  | .cons d _ rest, idx =>
      addSubdirs parts rest
        (indexSetEntry (alistInsert idx (parts ++ [d]) []) parts d
          (.subdirectory (parts ++ [d])))

/-- The scanner's state: the shared index and the warnings emitted so far. -/
structure ScanState where
  index : Index
  warnings : List ScanWarning
deriving Inhabited

/-- The file loop of the walk body (lines 115-124): try
`_reader_factory_for_file`; insert the entry on success, and on
`NoReaderAvailable` just `pass` (the warning was already emitted inside). -/
def addFiles (cfg : ScanConfig) (parts : PathKey) : List String → ScanState → ScanState
  | [], s => s
  | f :: rest, s =>
      addFiles cfg parts rest
        (match readerFactoryForFile cfg parts f with
         | .ok e => { s with index := indexSetEntry s.index parts f e }
         | .error w => { s with warnings := s.warnings ++ [w] })

/-- The recursive part of the `os.walk(directory, topdown=True)` loop of
`from_directory` (lines 106-124), driven by the subdirectory forest: each
subdirectory is walked (its own subdirectory and file entries processed,
then its subforest recursively), after which the walk continues with its
siblings. -/
def scanForest (cfg : ScanConfig) (parts : PathKey) : FsForest → ScanState → ScanState
  | .nil, s => s
  | .cons d (.node files sds) rest, s =>
      scanForest cfg parts rest
        (scanForest cfg (parts ++ [d]) sds
          (addFiles cfg (parts ++ [d]) files
            { s with index := addSubdirs (parts ++ [d]) sds s.index }))

/-- The walk body for one directory (lines 106-124): process this
directory's subdirectory and file entries, then descend into each
subdirectory in order. -/
def scanDir (cfg : ScanConfig) (parts : PathKey) : FsTree → ScanState → ScanState
  | .node files sds, s =>
      scanForest cfg parts sds
        (addFiles cfg parts files { s with index := addSubdirs parts sds s.index })

/-- The whole initial scan: start from `index = {(): {}}` (line 85) and
walk the root directory. -/
def scan (cfg : ScanConfig) (t : FsTree) : ScanState :=
  scanDir cfg [] t { index := [([], [])], warnings := [] }

/-! ### Construction (`from_directory`, lines 52-137) -/

/-- The construction-time exceptions of `from_directory`. -/
inductive ConstructError where
  | valueError
  | notImplementedError
deriving DecidableEq

/-- The validation and scan of `from_directory`.  `tree?` is `some` the
directory tree when `os.path.isdir(directory)` holds and `none` when the
root is missing (in which case, if tolerated, `os.walk` yields nothing and
the index stays `{(): {}}`).  `ignore` is the unsupported ignore-pattern
argument.  The watcher thread and facade construction carry no
construction-time failure of their own. -/
def fromDirectory (tree? : Option FsTree) (ignore : Option String)
    (cfg : ScanConfig) (errorIfMissing : Bool) :
    Except ConstructError ScanState :=
  if errorIfMissing && tree?.isNone then .error .valueError
  else if ignore.isSome then .error .notImplementedError
  else
    match tree? with
    | some t => .ok (scan cfg t)
    | none => .ok { index := [([], [])], warnings := [] }

/-! ### Pure characterization of the scan, used by the proofs -/

/-- Boolean membership test on names. -/
def memB (x : String) : List String → Bool
  | [] => false
  | y :: ys => if y = x then true else memB x ys

/-- Boolean no-duplicates check on names. -/
def nodupB : List String → Bool
  | [] => true
  | x :: xs => (!memB x xs) && nodupB xs

mutual
/-- Well-formedness of a directory tree, true of any real filesystem:
within each directory, subdirectory names are distinct and no file shares
a name with a subdirectory. -/
def wfT : FsTree → Bool
  | .node files sds =>
      nodupB (forestNames sds) &&
      files.all (fun f => !memB f (forestNames sds)) &&
      wfF sds

def wfF : FsForest → Bool
  | .nil => true
  | .cons _ t rest => wfT t && wfF rest
end

/-- First-defined choice of two optional node maps, describing lookups in
an index extended in front by new keys. -/
def orO {γ : Type} (x y : Option γ) : Option γ :=
  match x with
  | some v => some v
  | none => y

/-- The subdirectory entries the walk body adds to the node map of `parts`. -/
def subdirEntriesF (parts : PathKey) : FsForest → NodeMap
  | .nil => []
  | .cons d _ rest => (d, .subdirectory (parts ++ [d])) :: subdirEntriesF parts rest

/-- One file's effect on the node map being built. -/
def fileStep (cfg : ScanConfig) (parts : PathKey) (m : NodeMap) (f : String) : NodeMap :=
  match readerFactoryForFile cfg parts f with
  | .ok e => alistInsert m f e
  | .error _ => m

/-- The node map the scan produces for one directory. -/
def nodeMapOf (cfg : ScanConfig) (parts : PathKey) : FsTree → NodeMap
  | .node files sds => files.foldl (fileStep cfg parts) (subdirEntriesF parts sds)

/-- The warnings one directory's file loop emits, in order. -/
def fileWarnings (cfg : ScanConfig) (parts : PathKey) (files : List String) :
    List ScanWarning :=
  files.filterMap (fun f =>
    match readerFactoryForFile cfg parts f with
    | .ok _ => none
    | .error w => some w)

mutual
/-- All warnings of the walk of a tree, in walk order. -/
def treeWarnings (cfg : ScanConfig) (parts : PathKey) : FsTree → List ScanWarning
  | .node files sds => fileWarnings cfg parts files ++ forestWarnings cfg parts sds

def forestWarnings (cfg : ScanConfig) (parts : PathKey) : FsForest → List ScanWarning
  | .nil => []
  | .cons d t rest => treeWarnings cfg (parts ++ [d]) t ++ forestWarnings cfg parts rest
end

mutual
/-- The association of path keys to node maps the scan of a tree creates. -/
def specIndex (cfg : ScanConfig) (parts : PathKey) : FsTree → Index
  | .node files sds =>
      (parts, nodeMapOf cfg parts (.node files sds)) :: specIndexF cfg parts sds

def specIndexF (cfg : ScanConfig) (parts : PathKey) : FsForest → Index
  | .nil => []
  | .cons d t rest => specIndex cfg (parts ++ [d]) t ++ specIndexF cfg parts rest
end

mutual
/-- The relative path keys of all directories strictly inside a tree. -/
def dirPaths : FsTree → List PathKey
  | .node _ sds => dirPathsF sds

def dirPathsF : FsForest → List PathKey
  | .nil => []
  | .cons d t rest => [d] :: (dirPaths t).map (fun r => d :: r) ++ dirPathsF rest
end

mutual
/-- The subtree of a tree at a relative path key, if any. -/
def subtreeAt : FsTree → PathKey → Option FsTree
  | t, [] => some t
  | .node _ sds, n :: rest => subtreeAtF sds n rest

def subtreeAtF : FsForest → String → PathKey → Option FsTree
  | .nil, _, _ => none
  | .cons d t rest, n, r => if d = n then subtreeAt t r else subtreeAtF rest n r
end

/-! ### The structural invariant (spec §3, §8) -/

/-- Direction one at one path key: a non-root key must have a subdirectory
entry for its last segment, carrying the key itself, in its parent's node
map. -/
def dir1check (idx : Index) (p : PathKey) : Bool :=
  match p.getLast? with
  | none => true
  | some n =>
      match alistLookup idx p.dropLast with
      | none => false
      | some pm => decide (alistLookup pm n = some (.subdirectory p))

/-- Direction two at one path key: every subdirectory entry in its node map
carries the child key obtained by appending its name, and that key is
present in the index. -/
def dir2check (idx : Index) (p : PathKey) : Bool :=
  match alistLookup idx p with
  | none => true
  | some nm =>
      nm.all (fun ne =>
        match ne.2 with
        | .subdirectory q => decide (q = p ++ [ne.1]) && (alistLookup idx q).isSome
        | .readableFile _ _ => true)

/-- Bidirectional structural consistency of the Index. -/
def structInvB (idx : Index) : Bool :=
  idx.all (fun pr => dir1check idx pr.1 && dir2check idx pr.1)

/-- Decidable equality of `Except` results, for evaluating the model on
concrete inputs. -/
instance {ε α : Type} [DecidableEq ε] [DecidableEq α] : DecidableEq (Except ε α) :=
  fun x y =>
    match x, y with
    | .ok a, .ok b =>
        if h : a = b then .isTrue (by rw [h]) else .isFalse (fun hh => h (Except.ok.inj hh))
    | .error a, .error b =>
        if h : a = b then .isTrue (by rw [h]) else .isFalse (fun hh => h (Except.error.inj hh))
    | .ok _, .error _ => .isFalse (fun hh => Except.noConfusion hh)
    | .error _, .ok _ => .isFalse (fun hh => Except.noConfusion hh)

/-- A minimal configuration used to evaluate the model on concrete inputs. -/
def sampleCfg : ScanConfig :=
  { directory := "root"
    readersByMimetype := []
    defaultReaders := DEFAULT_READERS_BY_MIMETYPE
    mimetypesByFileExt := []
    guessType := fun p => if p.endsWith ".csv" then some "text/csv" else none }

/-! ## Theorems

### Association-list lemmas -/

@[simp] theorem alistLookup_nil {α β : Type} [DecidableEq α] (k : α) :
    alistLookup ([] : List (α × β)) k = none := rfl

theorem alistLookup_cons {α β : Type} [DecidableEq α] (k' : α) (v : β) (rest : List (α × β))
    (k : α) :
    alistLookup ((k', v) :: rest) k = if k' = k then some v else alistLookup rest k := rfl

@[simp] theorem alistLookup_insert_self {α β : Type} [DecidableEq α]
    (m : List (α × β)) (k : α) (v : β) :
    alistLookup (alistInsert m k v) k = some v := by
  induction m with
  | nil => simp [alistInsert, alistLookup]
  | cons p rest ih =>
      obtain ⟨k', v'⟩ := p
      by_cases hk : k' = k
      · simp [alistInsert, hk, alistLookup]
      · simp [alistInsert, hk, alistLookup, ih]

theorem alistLookup_insert_ne {α β : Type} [DecidableEq α]
    (m : List (α × β)) (k q : α) (v : β) (h : q ≠ k) :
    alistLookup (alistInsert m k v) q = alistLookup m q := by
  have hkq : ¬ k = q := fun e => h e.symm
  induction m with
  | nil => simp [alistInsert, alistLookup, hkq]
  | cons p rest ih =>
      obtain ⟨k', v'⟩ := p
      by_cases hk : k' = k
      · subst hk
        simp [alistInsert, alistLookup, hkq]
      · simp only [alistInsert, if_neg hk]
        rw [alistLookup_cons, alistLookup_cons]
        by_cases hq : k' = q
        · simp [hq]
        · simp [hq, ih]

theorem alistLookup_not_mem {α β : Type} [DecidableEq α]
    (m : List (α × β)) (k : α) (h : k ∉ m.map Prod.fst) :
    alistLookup m k = none := by
  induction m with
  | nil => rfl
  | cons p rest ih =>
      obtain ⟨k', v'⟩ := p
      simp only [List.map_cons, List.mem_cons, not_or] at h
      rw [alistLookup_cons, if_neg (fun e => h.1 e.symm)]
      exact ih h.2

@[simp] theorem alistLookup_erase_self {α β : Type} [DecidableEq α]
    (m : List (α × β)) (k : α) (hnodup : (m.map Prod.fst).Nodup) :
    alistLookup (alistErase m k) k = none := by
  induction m with
  | nil => simp [alistErase]
  | cons p rest ih =>
      obtain ⟨k', v'⟩ := p
      simp only [List.map_cons, List.nodup_cons] at hnodup
      by_cases hk : k' = k
      · subst hk
        simp only [alistErase, if_pos rfl]
        exact alistLookup_not_mem rest k' hnodup.1
      · simp only [alistErase, if_neg hk]
        rw [alistLookup_cons, if_neg hk]
        exact ih hnodup.2

theorem alistLookup_erase_ne {α β : Type} [DecidableEq α]
    (m : List (α × β)) (k q : α) (h : q ≠ k) :
    alistLookup (alistErase m k) q = alistLookup m q := by
  induction m with
  | nil => simp [alistErase]
  | cons p rest ih =>
      obtain ⟨k', v'⟩ := p
      by_cases hk : k' = k
      · subst hk
        have hne : ¬ k' = q := fun e => h e.symm
        simp [alistErase, alistLookup, hne]
      · simp only [alistErase, if_neg hk]
        rw [alistLookup_cons, alistLookup_cons]
        by_cases hq : k' = q
        · simp [hq]
        · simp [hq, ih]

/-- Inserting a fresh key appends it at the end (dict insertion order). -/
theorem alistInsert_fresh {α β : Type} [DecidableEq α]
    (m : List (α × β)) (k : α) (v : β) (h : alistLookup m k = none) :
    alistInsert m k v = m ++ [(k, v)] := by
  induction m with
  | nil => simp [alistInsert]
  | cons p rest ih =>
      obtain ⟨k', v'⟩ := p
      by_cases hk : k' = k
      · simp [alistLookup, hk] at h
      · simp only [alistLookup, if_neg hk] at h
        simp [alistInsert, hk, ih h]

/-- Lookup in an appended association list: first list wins. -/
theorem alistLookup_append {α β : Type} [DecidableEq α]
    (a b : List (α × β)) (k : α) :
    alistLookup (a ++ b) k =
      (match alistLookup a k with
       | some v => some v
       | none => alistLookup b k) := by
  induction a with
  | nil => simp [alistLookup]
  | cons p rest ih =>
      obtain ⟨k', v'⟩ := p
      by_cases hk : k' = k
      · simp [alistLookup, hk]
      · simp [alistLookup, hk, ih]

theorem alistLookup_isSome_of_mem {α β : Type} [DecidableEq α]
    (m : List (α × β)) (p : α × β) (h : p ∈ m) :
    (alistLookup m p.1).isSome := by
  induction m with
  | nil => cases h
  | cons q rest ih =>
      obtain ⟨k', v'⟩ := q
      rcases List.mem_cons.mp h with h' | h'
      · subst h'
        simp [alistLookup]
      · by_cases hk : k' = p.1
        · simp [alistLookup, hk]
        · simp only [alistLookup, if_neg hk]
          exact ih h'

theorem mem_of_alistLookup_eq_some {α β : Type} [DecidableEq α]
    (m : List (α × β)) (k : α) (v : β) (h : alistLookup m k = some v) :
    (k, v) ∈ m := by
  induction m with
  | nil => simp [alistLookup] at h
  | cons q rest ih =>
      obtain ⟨k', v'⟩ := q
      rw [alistLookup_cons] at h
      by_cases hk : k' = k
      · rw [if_pos hk] at h
        injection h with hv
        subst hk
        subst hv
        exact List.mem_cons_self _ _
      · rw [if_neg hk] at h
        exact List.mem_cons_of_mem _ (ih h)

/-! ### Claim C1: exactly-once application of the queued backlog -/

/-- C1: the claim that every change event queued during the initial scan is
applied exactly once across all subsequent poll iterations fails on the
code: `_watch` never clears `queued_changes` after draining it, so the
backlog is reprocessed on every later poll.  Concretely: one `Deleted`
event for an indexed file `a.csv` is queued during the scan; the first
poll after scan completion applies it (the entry is removed and the queue
is left intact), and the next poll applies the same queued event a second
time, which raises `KeyError` and kills the watcher thread. -/
theorem c1_queued_backlog_applied_twice :
    watchRun ⟨[], [([], [("a.csv", Entry.readableFile "r" "root/a.csv")])]⟩
        [⟨false, false, [⟨.deleted, [], "a.csv", false⟩]⟩,
         ⟨false, true, []⟩] =
      (2, ⟨[⟨.deleted, [], "a.csv", false⟩], [([], [])]⟩, none) ∧
    watchRun ⟨[], [([], [("a.csv", Entry.readableFile "r" "root/a.csv")])]⟩
        [⟨false, false, [⟨.deleted, [], "a.csv", false⟩]⟩,
         ⟨false, true, []⟩,
         ⟨false, true, []⟩] =
      (3, ⟨[⟨.deleted, [], "a.csv", false⟩], [([], [])]⟩, some .keyError) := by
  constructor
  · rfl
  · rfl

/-! ### Claim C2: Added events and the Scanner's resolution -/

/-- C2: the claim that an `Added(path)` event resolves MIME type and reader
exactly as the Scanner does fails on the code: `_process_changes` calls
`_reader_factory_for_file(readers_by_mimetype, path)`, omitting the
`mimetypes_by_file_ext` parameter of the three-parameter function, so every
`Added` event for a file raises `TypeError` (before any index mutation)
instead of inserting an entry. -/
theorem c2_added_event_raises_type_error (idx : Index) (parentParts : PathKey)
    (name : String) :
    processChange idx ⟨.added, parentParts, name, false⟩ = .error .typeError := rfl

/-! ### Claim C4: unconditional removal on Deleted -/

/-- C4: applying `Deleted(path)` pops the entry for `path.name` from its
parent's node map unconditionally: if the name is present the entry is
removed (and no other path key is touched); if the name is absent the
application raises `KeyError` rather than acting as a no-op. -/
theorem c4_deleted_removal_is_unconditional (idx : Index) (parts : PathKey)
    (name : String) (nm : NodeMap)
    (hparent : alistLookup idx parts = some nm)
    (hnodup : (nm.map Prod.fst).Nodup) :
    (∀ e, alistLookup nm name = some e →
        processChange idx ⟨.deleted, parts, name, false⟩ =
          .ok (alistInsert idx parts (alistErase nm name)) ∧
        alistLookup (alistInsert idx parts (alistErase nm name)) parts =
          some (alistErase nm name) ∧
        alistLookup (alistErase nm name) name = none ∧
        (∀ q, q ≠ parts →
          alistLookup (alistInsert idx parts (alistErase nm name)) q = alistLookup idx q)) ∧
    (alistLookup nm name = none →
        processChange idx ⟨.deleted, parts, name, false⟩ = .error .keyError) := by
  constructor
  · intro e he
    refine ⟨?_, ?_, ?_, ?_⟩
    · simp only [processChange, hparent, he, Bool.false_eq_true, if_false]
    · exact alistLookup_insert_self ..
    · exact alistLookup_erase_self nm name hnodup
    · intro q hq
      exact alistLookup_insert_ne idx parts q _ hq
  · intro he
    simp only [processChange, hparent, he, Bool.false_eq_true, if_false]

/-- Witness for C4 at a concrete index: deleting the present name `a.csv`
removes it; deleting the absent name `zz` raises `KeyError`. -/
theorem c4_witness :
    (processChange [([], [("a.csv", Entry.readableFile "r" "p")])]
        ⟨.deleted, [], "a.csv", false⟩ =
      .ok (alistInsert [([], [("a.csv", Entry.readableFile "r" "p")])] []
            (alistErase [("a.csv", Entry.readableFile "r" "p")] "a.csv")) ∧
     alistLookup (alistErase [("a.csv", Entry.readableFile "r" "p")] "a.csv") "a.csv" =
       none) ∧
    processChange [([], [("a.csv", Entry.readableFile "r" "p")])]
        ⟨.deleted, [], "zz", false⟩ = .error .keyError := by
  refine ⟨?_, ?_⟩
  · have h := (c4_deleted_removal_is_unconditional
      [([], [("a.csv", Entry.readableFile "r" "p")])] [] "a.csv"
      [("a.csv", Entry.readableFile "r" "p")] rfl (by decide)).1
      (Entry.readableFile "r" "p") rfl
    exact ⟨h.1, h.2.2.1⟩
  · exact (c4_deleted_removal_is_unconditional
      [([], [("a.csv", Entry.readableFile "r" "p")])] [] "zz"
      [("a.csv", Entry.readableFile "r" "p")] rfl (by decide)).2 rfl

/-! ### Claim C6: new directories are a fatal error -/

/-- C6: for every change event whose path is observed to be a directory,
`_process_changes` raises `NotImplementedError` before mutating anything:
the single-event application fails, and a batch beginning with such an
event leaves the index unchanged (so a subdirectory addition is never
applied to the Index). -/
theorem c6_new_directory_raises (idx : Index) (ev : ChangeEvent)
    (rest : List ChangeEvent) (h : ev.isDir = true) :
    processChange idx ev = .error .notImplementedError ∧
    processChanges idx (ev :: rest) = (idx, some .notImplementedError) := by
  have h1 : processChange idx ev = .error .notImplementedError := by
    simp only [processChange, h, if_true]
  exact ⟨h1, by simp only [processChanges, h1]⟩

/-- Witness for C6: an `Added` event whose path is a new directory `sub`
raises `NotImplementedError` and the index survives untouched. -/
theorem c6_witness :
    processChange [([], [])] ⟨.added, [], "sub", true⟩ = .error .notImplementedError ∧
    processChanges [([], [])] [⟨.added, [], "sub", true⟩, ⟨.modified, [], "x", false⟩] =
      ([([], [])], some .notImplementedError) :=
  c6_new_directory_raises [([], [])] ⟨.added, [], "sub", true⟩
    [⟨.modified, [], "x", false⟩] rfl

/-! ### Claim C5: construction-time failures -/

/-- C5 counterexample: the claim that construction raises only for a
missing root directory fails on the code: with the root directory present
(and `error_if_missing` left at its default `True`), passing any `ignore`
pattern raises `NotImplementedError` (`files.py` lines 71-73). -/
theorem c5_counterexample :
    fromDirectory (some (FsTree.node [] .nil)) (some "*.tmp") sampleCfg true =
      .error .notImplementedError := rfl

/-- C5 (amended): construction raises `ValueError` precisely when the root
directory is missing and `error_if_missing` is true; it raises
`NotImplementedError` precisely when that is not the case and an `ignore`
argument is supplied; in every other combination it succeeds. -/
theorem c5_construction_raises_characterization :
    ∀ (tree? : Option FsTree) (ignore : Option String) (cfg : ScanConfig) (eim : Bool),
      ((∃ st, fromDirectory tree? ignore cfg eim = .ok st) ↔
        (¬(eim = true ∧ tree? = none) ∧ ignore = none)) ∧
      (fromDirectory tree? ignore cfg eim = .error .valueError ↔
        (eim = true ∧ tree? = none)) ∧
      (fromDirectory tree? ignore cfg eim = .error .notImplementedError ↔
        (¬(eim = true ∧ tree? = none) ∧ ignore ≠ none)) := by
  intro tree? ignore cfg eim
  cases eim <;> rcases tree? with _ | t <;> rcases ignore with _ | ig <;>
    simp [fromDirectory]

/-- Witness for C5 (amended) at concrete inputs: an existing root with no
ignore pattern constructs; a missing required root raises `ValueError`. -/
theorem c5_witness :
    (∃ st, fromDirectory (some (FsTree.node [] .nil)) none sampleCfg true = .ok st) ∧
    fromDirectory none none sampleCfg true = .error .valueError := by
  constructor
  · exact ((c5_construction_raises_characterization (some (FsTree.node [] .nil))
      none sampleCfg true).1).mpr (by simp)
  · exact ((c5_construction_raises_characterization none none sampleCfg
      true).2.1).mpr (by simp)

/-! ### Claim C8: user-supplied readers take precedence -/

/-- C8: a MIME type present in the user-supplied reader registry resolves
to the user-supplied factory through the chain map, never the built-in
default for the same MIME type; consequently file classification with such
a MIME type produces an entry bound to the user-supplied factory. -/
theorem c8_user_reader_precedence :
    (∀ (user defaults : List (String × ReaderFactory)) (m : String) (rU : ReaderFactory),
        alistLookup user m = some rU → chainLookup user defaults m = some rU) ∧
    (∀ (cfg : ScanConfig) (parts : PathKey) (name m : String) (rU : ReaderFactory),
        mimetypeOf cfg parts name = some m →
        alistLookup cfg.readersByMimetype m = some rU →
        readerFactoryForFile cfg parts name =
          .ok (.readableFile rU (joinPath cfg.directory parts name))) := by
  constructor
  · intro user defaults m rU h
    simp only [chainLookup, h]
  · intro cfg parts name m rU hm hr
    simp only [readerFactoryForFile, hm, chainLookup, hr]

/-- Witness for C8: `text/csv` is present in both the user registry and the
built-in defaults (where it maps to a different factory); lookup and file
classification both yield the user-supplied factory. -/
theorem c8_witness :
    chainLookup [("text/csv", "myCsvReader")] DEFAULT_READERS_BY_MIMETYPE "text/csv" =
      some "myCsvReader" ∧
    alistLookup DEFAULT_READERS_BY_MIMETYPE "text/csv" =
      some "DataFrameAdapter.read_csv" ∧
    readerFactoryForFile
        { directory := "root", readersByMimetype := [("text/csv", "myCsvReader")],
          defaultReaders := DEFAULT_READERS_BY_MIMETYPE, mimetypesByFileExt := [],
          guessType := fun _ => some "text/csv" } [] "a.csv" =
      .ok (.readableFile "myCsvReader" (joinPath "root" [] "a.csv")) := by
  refine ⟨?_, by decide, ?_⟩
  · exact c8_user_reader_precedence.1 [("text/csv", "myCsvReader")]
      DEFAULT_READERS_BY_MIMETYPE "text/csv" "myCsvReader" rfl
  · exact c8_user_reader_precedence.2 _ [] "a.csv" "text/csv" "myCsvReader" rfl rfl

/-! ### Claim C10: the override lookup uses all suffixes -/

theorem concatAll_cons (s : String) (l : List String) :
    concatAll (s :: l) = s ++ concatAll l := rfl

theorem length_concatAll_ge_of_mem (l : List String) (s : String) (h : s ∈ l) :
    s.length ≤ (concatAll l).length := by
  induction l with
  | nil => cases h
  | cons x xs ih =>
      rw [concatAll_cons, String.length_append]
      rcases List.mem_cons.mp h with h' | h'
      · subst h'
        exact Nat.le_add_right _ _
      · exact le_trans (ih h') (Nat.le_add_left _ _)

theorem suffixes_length_pos (name s : String) (h : s ∈ suffixes name) :
    0 < s.length := by
  simp only [suffixes] at h
  split at h
  · cases h
  · obtain ⟨cs, _, rfl⟩ := List.mem_map.mp h
    simp [String.length]

theorem getLast?_mem {α : Type} (l : List α) (a : α) (h : l.getLast? = some a) :
    a ∈ l := by
  induction l with
  | nil => simp [List.getLast?] at h
  | cons x xs ih =>
      cases xs with
      | nil =>
          simp only [List.getLast?_singleton, Option.some.injEq] at h
          subst h
          exact List.mem_cons_self _ _
      | cons y ys =>
          rw [List.getLast?_cons_cons] at h
          exact List.mem_cons_of_mem _ (ih h)

/-- C10: the extension used for the MIME-override lookup is the
concatenation of all of the path's suffixes; hence for a file name with at
least two suffixes, an override map keyed by only the final suffix never
matches, and resolution falls through to the OS guess. -/
theorem c10_override_keyed_by_final_suffix_misses :
    ∀ (cfg : ScanConfig) (parts : PathKey) (name s1 last m : String)
      (tail : List String),
      suffixes name = s1 :: tail →
      tail.getLast? = some last →
      cfg.mimetypesByFileExt = [(last, m)] →
      extOf name = concatAll (suffixes name) ∧
      alistLookup cfg.mimetypesByFileExt (extOf name) = none ∧
      mimetypeOf cfg parts name = cfg.guessType (joinPath cfg.directory parts name) := by
  intro cfg parts name s1 last m tail hs hl hm
  have hmemTail : last ∈ tail := getLast?_mem tail last hl
  have hs1 : s1 ∈ suffixes name := by
    rw [hs]
    exact List.mem_cons_self _ _
  have hlen : last.length < (extOf name).length := by
    have h1 : 0 < s1.length := suffixes_length_pos name s1 hs1
    have h2 : last.length ≤ (concatAll tail).length :=
      length_concatAll_ge_of_mem tail last hmemTail
    have h3 : (extOf name).length = s1.length + (concatAll tail).length := by
      rw [extOf, hs, concatAll_cons, String.length_append]
    omega
  have hne : ¬ (last = extOf name) := by
    intro e
    rw [e] at hlen
    omega
  have hlookup : alistLookup [(last, m)] (extOf name) = none := by
    simp [alistLookup, hne]
  refine ⟨rfl, ?_, ?_⟩
  · rw [hm]
    exact hlookup
  · rw [mimetypeOf, hm, hlookup]

/-- Witness for C10: for `archive.tar.gz` the lookup key is `.tar.gz`, so
an override keyed `.gz` is skipped and the OS guess is used. -/
theorem c10_witness :
    extOf "archive.tar.gz" = ".tar.gz" ∧
    mimetypeOf
        { directory := "root", readersByMimetype := [], defaultReaders := [],
          mimetypesByFileExt := [(".gz", "application/gzip")],
          guessType := fun _ => some "guessed/type" } [] "archive.tar.gz" =
      some "guessed/type" := by
  constructor
  · decide
  · have h := c10_override_keyed_by_final_suffix_misses
      { directory := "root", readersByMimetype := [], defaultReaders := [],
        mimetypesByFileExt := [(".gz", "application/gzip")],
        guessType := fun _ => some "guessed/type" }
      [] "archive.tar.gz" ".tar" ".gz" "application/gzip" [".gz"]
      (by decide) (by decide) rfl
    rw [h.2.2]

/-! ### Claim C9: shutdown is idempotent and shared -/

theorem watchRun_cons_kill (s : WatchState) (st : PollStep) (rest : List PollStep)
    (h : st.kill = true) :
    watchRun s (st :: rest) = (0, s, none) := by
  simp only [watchRun, h, if_true]

theorem watchRun_cons_err (s : WatchState) (st : PollStep) (rest : List PollStep)
    (h : st.kill = false) (s₁ : WatchState) (e : PyErr)
    (hit : watchIterate s st.scanComplete st.changes = (s₁, some e)) :
    watchRun s (st :: rest) = (1, s₁, some e) := by
  simp only [watchRun, h, Bool.false_eq_true, if_false, hit]

theorem watchRun_cons_ok (s : WatchState) (st : PollStep) (rest : List PollStep)
    (h : st.kill = false) (s₁ : WatchState)
    (hit : watchIterate s st.scanComplete st.changes = (s₁, none))
    (n : Nat) (s₂ : WatchState) (e : Option PyErr)
    (hr : watchRun s₁ rest = (n, s₂, e)) :
    watchRun s (st :: rest) = (n + 1, s₂, e) := by
  simp only [watchRun, h, Bool.false_eq_true, if_false, hit, hr]

/-- C9: `shutdown_watcher` sets the shared kill switch (appending to the
shared list makes its truthiness true); a second call has no further
observable effect on the signal; `new_variation` hands the derived facade
the very same kill switch, index and reader registry; and the watcher loop
terminates at the first poll whose kill check reads true, executing no
further iterations. -/
theorem c9_shutdown_idempotent_and_shared :
    (∀ c : CatalogFacade, killObserved (shutdownWatcher c) = true) ∧
    (∀ c : CatalogFacade,
        killObserved (shutdownWatcher (shutdownWatcher c)) =
          killObserved (shutdownWatcher c)) ∧
    (∀ (c : CatalogFacade) (md : List (String × String)),
        (newVariation c md).killSwitch = c.killSwitch ∧
        (newVariation c md).index = c.index ∧
        (newVariation c md).readersByMimetype = c.readersByMimetype) ∧
    (∀ (s : WatchState) (sc : Bool) (ch : List ChangeEvent) (rest : List PollStep),
        watchRun s (⟨true, sc, ch⟩ :: rest) = (0, s, none)) ∧
    (∀ (pre : List PollStep) (s s' : WatchState) (killStep : PollStep)
        (rest : List PollStep),
        (∀ st ∈ pre, st.kill = false) → killStep.kill = true →
        watchRun s pre = (pre.length, s', none) →
        watchRun s (pre ++ killStep :: rest) = (pre.length, s', none)) := by
  refine ⟨?_, ?_, ?_, ?_, ?_⟩
  · intro c
    cases h : c.killSwitch <;> simp [shutdownWatcher, killObserved, h]
  · intro c
    cases h : c.killSwitch <;> simp [shutdownWatcher, killObserved, h]
  · intro c md
    exact ⟨rfl, rfl, rfl⟩
  · intro s sc ch rest
    rfl
  · intro pre
    induction pre with
    | nil =>
        intro s s' killStep rest hpre hkill hrun
        have hs : s = s' := congrArg (fun p => p.2.1) hrun
        rw [List.nil_append, List.length_nil]
        rw [watchRun_cons_kill s killStep rest hkill, hs]
    | cons st pre' ih =>
        intro s s' killStep rest hpre hkill hrun
        have hstk : st.kill = false := hpre st (List.mem_cons_self _ _)
        rcases hit : watchIterate s st.scanComplete st.changes with ⟨s₁, e₁⟩
        cases e₁ with
        | some e =>
            rw [watchRun_cons_err s st pre' hstk s₁ e hit] at hrun
            have h3 : (some e : Option PyErr) = none := congrArg (fun p => p.2.2) hrun
            exact absurd h3 (by simp)
        | none =>
            rcases hr : watchRun s₁ pre' with ⟨n, s'', e⟩
            rw [watchRun_cons_ok s st pre' hstk s₁ hit n s'' e hr] at hrun
            have hn : n + 1 = (st :: pre').length := congrArg (fun p => p.1) hrun
            have hs'' : s'' = s' := congrArg (fun p => p.2.1) hrun
            have he : e = none := congrArg (fun p => p.2.2) hrun
            rw [List.length_cons] at hn
            have hn' : n = pre'.length := by omega
            have hrun' : watchRun s₁ pre' = (pre'.length, s', none) := by
              rw [hr, hn', hs'', he]
            have hIH := ih s₁ s' killStep rest
              (fun st' hm => hpre st' (List.mem_cons_of_mem _ hm)) hkill hrun'
            rw [List.cons_append,
              watchRun_cons_ok s st (pre' ++ killStep :: rest) hstk s₁ hit
                pre'.length s' none hIH,
              List.length_cons]

/-- Witness for C9's loop-termination conjunct: one benign poll, then a
poll with the kill switch set; the loop executes exactly one iteration. -/
theorem c9_witness :
    watchRun ⟨[], [([], [])]⟩
        ([⟨false, true, []⟩] ++ ⟨true, false, []⟩ :: [⟨false, true, []⟩]) =
      (1, ⟨[], [([], [])]⟩, none) := by
  have h := c9_shutdown_idempotent_and_shared.2.2.2.2
    [⟨false, true, []⟩] ⟨[], [([], [])]⟩ ⟨[], [([], [])]⟩
    ⟨true, false, []⟩ [⟨false, true, []⟩]
    (by intro st hm; simp at hm; rw [hm]) rfl (by decide)
  exact h

/-! ### Basic lemmas about the scan machinery -/

theorem memB_eq_true_iff (x : String) (l : List String) : memB x l = true ↔ x ∈ l := by
  induction l with
  | nil => simp [memB]
  | cons y ys ih =>
      rw [memB]
      by_cases h : y = x
      · simp [h, List.mem_cons]
      · simp only [if_neg h, ih, List.mem_cons]
        constructor
        · exact Or.inr
        · rintro (h1 | h1)
          · exact absurd h1.symm h
          · exact h1

theorem not_mem_of_memB_false (x : String) (l : List String) (h : memB x l = false) :
    x ∉ l := by
  intro hm
  rw [(memB_eq_true_iff x l).mpr hm] at h
  exact Bool.noConfusion h

theorem nodupB_cons_elim (x : String) (xs : List String) (h : nodupB (x :: xs) = true) :
    x ∉ xs ∧ nodupB xs = true := by
  rw [nodupB] at h
  rcases Bool.and_eq_true_iff.mp h with ⟨h1, h2⟩
  refine ⟨?_, h2⟩
  apply not_mem_of_memB_false
  cases hm : memB x xs
  · rfl
  · rw [hm] at h1
    exact Bool.noConfusion h1

theorem wfT_node_elim (files : List String) (sds : FsForest)
    (h : wfT (.node files sds) = true) :
    nodupB (forestNames sds) = true ∧ (∀ f ∈ files, f ∉ forestNames sds) ∧
      wfF sds = true := by
  rw [wfT] at h
  rcases Bool.and_eq_true_iff.mp h with ⟨h12, h3⟩
  rcases Bool.and_eq_true_iff.mp h12 with ⟨h1, h2⟩
  refine ⟨h1, ?_, h3⟩
  intro f hf hmem
  have hall := List.all_eq_true.mp h2 f hf
  rw [(memB_eq_true_iff f _).mpr hmem] at hall
  exact Bool.noConfusion hall

theorem wfF_cons_elim (d : String) (t : FsTree) (rest : FsForest)
    (h : wfF (.cons d t rest) = true) : wfT t = true ∧ wfF rest = true := by
  rw [wfF] at h
  exact Bool.and_eq_true_iff.mp h

theorem mem_alistInsert {α β : Type} [DecidableEq α] (m : List (α × β)) (k : α) (v : β)
    (x : α × β) (h : x ∈ alistInsert m k v) : x = (k, v) ∨ x ∈ m := by
  induction m with
  | nil =>
      rw [alistInsert] at h
      rcases List.mem_cons.mp h with h1 | h1
      · exact Or.inl h1
      · cases h1
  | cons p rest ih =>
      obtain ⟨k', v'⟩ := p
      rw [alistInsert] at h
      by_cases hk : k' = k
      · rw [if_pos hk] at h
        rcases List.mem_cons.mp h with h1 | h1
        · exact Or.inl h1
        · exact Or.inr (List.mem_cons_of_mem _ h1)
      · rw [if_neg hk] at h
        rcases List.mem_cons.mp h with h1 | h1
        · exact Or.inr (h1 ▸ List.mem_cons_self _ _)
        · rcases ih h1 with h2 | h2
          · exact Or.inl h2
          · exact Or.inr (List.mem_cons_of_mem _ h2)

theorem mem_alistErase {α β : Type} [DecidableEq α] (m : List (α × β)) (k : α)
    (x : α × β) (h : x ∈ alistErase m k) : x ∈ m := by
  induction m with
  | nil => cases h
  | cons p rest ih =>
      obtain ⟨k', v'⟩ := p
      rw [alistErase] at h
      by_cases hk : k' = k
      · rw [if_pos hk] at h
        exact List.mem_cons_of_mem _ h
      · rw [if_neg hk] at h
        rcases List.mem_cons.mp h with h1 | h1
        · exact h1 ▸ List.mem_cons_self _ _
        · exact List.mem_cons_of_mem _ (ih h1)

theorem orO_some {γ : Type} (v : γ) (y : Option γ) : orO (some v) y = some v := rfl

theorem orO_none {γ : Type} (y : Option γ) : orO none y = y := rfl

theorem orO_assoc {γ : Type} (x y z : Option γ) :
    orO (orO x y) z = orO x (orO y z) := by
  cases x <;> rfl

theorem orO_comm_of_disjoint {γ : Type} (x y z : Option γ)
    (h : x.isSome = true → y = none) :
    orO x (orO y z) = orO y (orO x z) := by
  cases x with
  | none => rfl
  | some v =>
      rw [h rfl]
      rfl

theorem orO_isSome {γ : Type} (x y : Option γ) :
    (orO x y).isSome = true ↔ x.isSome = true ∨ y.isSome = true := by
  cases x <;> simp [orO]

theorem dirPathsF_head : ∀ (f : FsForest) (r : PathKey), r ∈ dirPathsF f →
    ∃ d r', r = d :: r' ∧ d ∈ forestNames f
  | .nil, r, h => by cases h
  | .cons d t rest, r, h => by
      rw [dirPathsF] at h
      rcases List.mem_cons.mp h with h1 | h2
      · exact ⟨d, [], h1, List.mem_cons_self _ _⟩
      · rcases List.mem_append.mp h2 with h3 | h4
        · obtain ⟨r₀, _, rfl⟩ := List.mem_map.mp h3
          exact ⟨d, r₀, rfl, List.mem_cons_self _ _⟩
        · obtain ⟨d', r', hr, hd⟩ := dirPathsF_head rest r h4
          exact ⟨d', r', hr, List.mem_cons_of_mem _ hd⟩

theorem mem_dirPathsF_of_name : ∀ (f : FsForest) (d : String), d ∈ forestNames f →
    [d] ∈ dirPathsF f
  | .nil, d, h => by cases h
  | .cons d' t rest, d, h => by
      rw [forestNames] at h
      rw [dirPathsF]
      rcases List.mem_cons.mp h with h1 | h1
      · subst h1
        exact List.mem_cons_self _ _
      · exact List.mem_cons_of_mem _
          (List.mem_append_right _ (mem_dirPathsF_of_name rest d h1))

theorem alistLookup_subdirEntriesF_mem : ∀ (f : FsForest) (parts : PathKey) (n : String),
    n ∈ forestNames f →
    alistLookup (subdirEntriesF parts f) n = some (.subdirectory (parts ++ [n]))
  | .nil, _, n, h => by cases h
  | .cons d t rest, parts, n, h => by
      rw [subdirEntriesF, alistLookup_cons]
      by_cases hd : d = n
      · subst hd
        rw [if_pos rfl]
      · rw [if_neg hd]
        rcases List.mem_cons.mp h with h1 | h1
        · exact absurd h1.symm hd
        · exact alistLookup_subdirEntriesF_mem rest parts n h1

theorem alistLookup_subdirEntriesF_notmem : ∀ (f : FsForest) (parts : PathKey) (n : String),
    n ∉ forestNames f → alistLookup (subdirEntriesF parts f) n = none
  | .nil, _, _, _ => rfl
  | .cons d t rest, parts, n, h => by
      rw [subdirEntriesF, alistLookup_cons]
      have hd : ¬ (d = n) := fun e => h (e ▸ List.mem_cons_self _ _)
      rw [if_neg hd]
      exact alistLookup_subdirEntriesF_notmem rest parts n
        (fun hm => h (List.mem_cons_of_mem _ hm))

theorem mem_subdirEntriesF : ∀ (f : FsForest) (parts : PathKey) (x : String × Entry),
    x ∈ subdirEntriesF parts f →
    ∃ d, d ∈ forestNames f ∧ x = (d, Entry.subdirectory (parts ++ [d]))
  | .nil, _, x, h => by cases h
  | .cons d t rest, parts, x, h => by
      rw [subdirEntriesF] at h
      rcases List.mem_cons.mp h with h1 | h1
      · exact ⟨d, List.mem_cons_self _ _, h1⟩
      · obtain ⟨d', hd', hx⟩ := mem_subdirEntriesF rest parts x h1
        exact ⟨d', List.mem_cons_of_mem _ hd', hx⟩

theorem readerFactoryForFile_ok_shape (cfg : ScanConfig) (parts : PathKey)
    (name : String) (e : Entry) (h : readerFactoryForFile cfg parts name = .ok e) :
    ∃ rd, e = Entry.readableFile rd (joinPath cfg.directory parts name) := by
  simp only [readerFactoryForFile] at h
  cases hm : mimetypeOf cfg parts name with
  | none =>
      simp only [hm] at h
      exact Except.noConfusion h
  | some mt =>
      simp only [hm] at h
      cases hc : chainLookup cfg.readersByMimetype cfg.defaultReaders mt with
      | none =>
          simp only [hc] at h
          exact Except.noConfusion h
      | some rd =>
          simp only [hc] at h
          exact ⟨rd, (Except.ok.inj h).symm⟩

theorem fileStep_lookup_ne (cfg : ScanConfig) (parts : PathKey) (m : NodeMap)
    (f g : String) (h : g ≠ f) :
    alistLookup (fileStep cfg parts m f) g = alistLookup m g := by
  rw [fileStep]
  cases readerFactoryForFile cfg parts f with
  | ok e => exact alistLookup_insert_ne m f g e h
  | error w => rfl

theorem foldl_fileStep_notmem (cfg : ScanConfig) (parts : PathKey) :
    ∀ (files : List String) (m : NodeMap) (g : String), g ∉ files →
      alistLookup (files.foldl (fileStep cfg parts) m) g = alistLookup m g
  | [], _, _, _ => rfl
  | f :: rest, m, g, h => by
      rw [List.foldl_cons,
        foldl_fileStep_notmem cfg parts rest _ g
          (fun hm => h (List.mem_cons_of_mem _ hm))]
      exact fileStep_lookup_ne cfg parts m f g
        (fun e => h (e ▸ List.mem_cons_self _ _))

theorem foldl_fileStep_skip (cfg : ScanConfig) (parts : PathKey) :
    ∀ (files : List String) (m : NodeMap) (f : String) (w : ScanWarning),
      readerFactoryForFile cfg parts f = .error w →
      alistLookup (files.foldl (fileStep cfg parts) m) f = alistLookup m f
  | [], _, _, _, _ => rfl
  | g :: rest, m, f, w, h => by
      rw [List.foldl_cons, foldl_fileStep_skip cfg parts rest _ f w h]
      by_cases hg : g = f
      · subst hg
        simp only [fileStep, h]
      · exact fileStep_lookup_ne cfg parts m g f (fun e => hg e.symm)

theorem foldl_fileStep_ok (cfg : ScanConfig) (parts : PathKey) :
    ∀ (files : List String) (m : NodeMap) (g : String) (e : Entry),
      readerFactoryForFile cfg parts g = .ok e →
      (g ∈ files ∨ alistLookup m g = some e) →
      alistLookup (files.foldl (fileStep cfg parts) m) g = some e
  | [], m, g, e, _, hor => by
      rcases hor with h | h
      · cases h
      · exact h
  | f :: rest, m, g, e, hok, hor => by
      rw [List.foldl_cons]
      by_cases hf : f = g
      · subst hf
        apply foldl_fileStep_ok cfg parts rest _ f e hok
        right
        simp only [fileStep, hok]
        exact alistLookup_insert_self m f e
      · apply foldl_fileStep_ok cfg parts rest _ g e hok
        rcases hor with h | h
        · rcases List.mem_cons.mp h with h1 | h1
          · exact absurd h1.symm hf
          · exact Or.inl h1
        · right
          rw [fileStep_lookup_ne cfg parts m f g (fun ee => hf ee.symm)]
          exact h

theorem mem_foldl_fileStep_subdir (cfg : ScanConfig) (parts : PathKey) :
    ∀ (files : List String) (m : NodeMap) (n : String) (q : PathKey),
      (n, Entry.subdirectory q) ∈ files.foldl (fileStep cfg parts) m →
      (n, Entry.subdirectory q) ∈ m
  | [], _, _, _, h => h
  | f :: rest, m, n, q, h => by
      rw [List.foldl_cons] at h
      have h2 := mem_foldl_fileStep_subdir cfg parts rest _ n q h
      rw [fileStep] at h2
      revert h2
      cases hrf : readerFactoryForFile cfg parts f with
      | ok e =>
          intro h2
          rcases mem_alistInsert m f e _ h2 with h3 | h3
          · obtain ⟨rd, rfl⟩ := readerFactoryForFile_ok_shape cfg parts f e hrf
            cases (Prod.mk.inj h3).2
          · exact h3
      | error w => exact id

theorem mem_fileWarnings (cfg : ScanConfig) (parts : PathKey) (files : List String)
    (f : String) (w : ScanWarning) (hf : f ∈ files)
    (hrf : readerFactoryForFile cfg parts f = .error w) :
    w ∈ fileWarnings cfg parts files := by
  rw [fileWarnings]
  exact List.mem_filterMap.mpr ⟨f, hf, by simp only [hrf]⟩

/-! ### Mutual lemmas over the directory tree -/

mutual
theorem specIndex_keys (cfg : ScanConfig) : ∀ (t : FsTree) (P q : PathKey),
    (alistLookup (specIndex cfg P t) q).isSome = true →
    q = P ∨ ∃ r, r ∈ dirPaths t ∧ q = P ++ r
  | .node files sds, P, q, h => by
      rw [specIndex, alistLookup_cons] at h
      by_cases hq : P = q
      · exact Or.inl hq.symm
      · rw [if_neg hq] at h
        obtain ⟨r, hr, hq'⟩ := specIndexF_keys cfg sds P q h
        exact Or.inr ⟨r, by rw [dirPaths]; exact hr, hq'⟩

theorem specIndexF_keys (cfg : ScanConfig) : ∀ (f : FsForest) (P q : PathKey),
    (alistLookup (specIndexF cfg P f) q).isSome = true →
    ∃ r, r ∈ dirPathsF f ∧ q = P ++ r
  | .nil, P, q, h => by
      rw [specIndexF] at h
      exact Bool.noConfusion h
  | .cons d t rest, P, q, h => by
      rw [specIndexF, alistLookup_append] at h
      cases h1 : alistLookup (specIndex cfg (P ++ [d]) t) q with
      | some v =>
          rcases specIndex_keys cfg t (P ++ [d]) q (by rw [h1]; rfl) with h2 | ⟨r, hr, h2⟩
          · refine ⟨[d], by rw [dirPathsF]; exact List.mem_cons_self _ _, h2⟩
          · refine ⟨d :: r, ?_, ?_⟩
            · rw [dirPathsF]
              exact List.mem_cons_of_mem _
                (List.mem_append_left _ (List.mem_map.mpr ⟨r, hr, rfl⟩))
            · rw [h2, List.append_assoc]
              rfl
      | none =>
          rw [h1] at h
          obtain ⟨r, hr, hq⟩ := specIndexF_keys cfg rest P q h
          exact ⟨r, by
            rw [dirPathsF]
            exact List.mem_cons_of_mem _ (List.mem_append_right _ hr), hq⟩
end

mutual
theorem specIndex_lookup_subtree (cfg : ScanConfig) :
    ∀ (t : FsTree) (P r : PathKey) (t' : FsTree),
    subtreeAt t r = some t' →
    alistLookup (specIndex cfg P t) (P ++ r) = some (nodeMapOf cfg (P ++ r) t')
  | .node files sds, P, [], t', h => by
      have ht : FsTree.node files sds = t' := Option.some.inj h
      subst ht
      rw [List.append_nil, specIndex, alistLookup_cons, if_pos rfl]
  | .node files sds, P, n :: r', t', h => by
      rw [specIndex, alistLookup_cons]
      have hne : ¬ (P = P ++ n :: r') := by
        intro e
        have hl := congrArg List.length e
        simp at hl
      rw [if_neg hne]
      exact specIndexF_lookup_subtree cfg sds P n r' t' (by rw [subtreeAt] at h; exact h)

theorem specIndexF_lookup_subtree (cfg : ScanConfig) :
    ∀ (f : FsForest) (P : PathKey) (n : String) (r' : PathKey) (t' : FsTree),
    subtreeAtF f n r' = some t' →
    alistLookup (specIndexF cfg P f) (P ++ n :: r') =
      some (nodeMapOf cfg (P ++ n :: r') t')
  | .nil, P, n, r', t', h => by
      rw [subtreeAtF] at h
      exact Option.noConfusion h
  | .cons d t rest, P, n, r', t', h => by
      rw [subtreeAtF] at h
      rw [specIndexF, alistLookup_append]
      by_cases hd : d = n
      · rw [if_pos hd] at h
        subst hd
        have hh := specIndex_lookup_subtree cfg t (P ++ [d]) r' t' h
        have ha : (P ++ [d]) ++ r' = P ++ d :: r' := by
          rw [List.append_assoc]
          rfl
        rw [ha] at hh
        rw [hh]
      · rw [if_neg hd] at h
        have hnone : alistLookup (specIndex cfg (P ++ [d]) t) (P ++ n :: r') = none := by
          cases hl : alistLookup (specIndex cfg (P ++ [d]) t) (P ++ n :: r') with
          | none => rfl
          | some v =>
              exfalso
              rcases specIndex_keys cfg t (P ++ [d]) (P ++ n :: r') (by rw [hl]; rfl) with
                h2 | ⟨r, _, h2⟩
              · have h3 : n :: r' = [d] := List.append_cancel_left h2
                exact hd (List.cons.inj h3).1.symm
              · rw [List.append_assoc] at h2
                have h3 : n :: r' = [d] ++ r := List.append_cancel_left h2
                exact hd (List.cons.inj h3).1.symm
        rw [hnone]
        exact specIndexF_lookup_subtree cfg rest P n r' t' h
end

mutual
theorem dirPaths_subtree_exists : ∀ (t : FsTree) (r : PathKey), wfT t = true →
    r ∈ dirPaths t → ∃ t', subtreeAt t r = some t'
  | .node files sds, r, hwf, hr => by
      obtain ⟨hnd, _, hwfF⟩ := wfT_node_elim files sds hwf
      rw [dirPaths] at hr
      obtain ⟨d, r', rfl, _⟩ := dirPathsF_head sds r hr
      obtain ⟨t', ht⟩ := dirPathsF_subtree_exists sds d r' hwfF hnd hr
      exact ⟨t', by rw [subtreeAt]; exact ht⟩

theorem dirPathsF_subtree_exists : ∀ (f : FsForest) (d : String) (r' : PathKey),
    wfF f = true → nodupB (forestNames f) = true → (d :: r') ∈ dirPathsF f →
    ∃ t', subtreeAtF f d r' = some t'
  | .nil, d, r', _, _, h => by cases h
  | .cons d₀ t rest, d, r', hwf, hnd, h => by
      obtain ⟨hwt, hwr⟩ := wfF_cons_elim d₀ t rest hwf
      obtain ⟨hd₀, hndr⟩ := nodupB_cons_elim d₀ (forestNames rest) hnd
      rw [dirPathsF] at h
      rw [subtreeAtF]
      rcases List.mem_cons.mp h with h1 | h2
      · obtain ⟨ha, hb⟩ := List.cons.inj h1
        subst ha
        subst hb
        rw [if_pos rfl]
        exact ⟨t, by rw [subtreeAt]⟩
      · rcases List.mem_append.mp h2 with h3 | h4
        · obtain ⟨r₀, hr₀, he⟩ := List.mem_map.mp h3
          obtain ⟨ha, hb⟩ := List.cons.inj he
          subst ha
          subst hb
          rw [if_pos rfl]
          exact dirPaths_subtree_exists t r₀ hwt hr₀
        · have hd_in : d ∈ forestNames rest := by
            obtain ⟨dd, rr, he, hdd⟩ := dirPathsF_head rest (d :: r') h4
            obtain ⟨ha, _⟩ := List.cons.inj he
            exact ha ▸ hdd
          have hne : ¬ (d₀ = d) := fun e => hd₀ (e ▸ hd_in)
          rw [if_neg hne]
          exact dirPathsF_subtree_exists rest d r' hwr hndr h4
end

mutual
theorem mem_dirPaths_of_subtree : ∀ (t : FsTree) (r : PathKey) (t' : FsTree) (n : String),
    subtreeAt t r = some t' → n ∈ forestNames t'.subdirsOf →
    (r ++ [n]) ∈ dirPaths t
  | .node files sds, [], t', n, h, hn => by
      have ht : FsTree.node files sds = t' := Option.some.inj h
      subst ht
      rw [List.nil_append, dirPaths]
      exact mem_dirPathsF_of_name sds n hn
  | .node files sds, m :: r', t', n, h, hn => by
      rw [List.cons_append, dirPaths]
      exact memF_dirPaths_of_subtreeF sds m r' t' n (by rw [subtreeAt] at h; exact h) hn

theorem memF_dirPaths_of_subtreeF : ∀ (f : FsForest) (m : String) (r' : PathKey)
    (t' : FsTree) (n : String),
    subtreeAtF f m r' = some t' → n ∈ forestNames t'.subdirsOf →
    (m :: (r' ++ [n])) ∈ dirPathsF f
  | .nil, m, r', t', n, h, _ => by
      rw [subtreeAtF] at h
      exact Option.noConfusion h
  | .cons d t rest, m, r', t', n, h, hn => by
      rw [subtreeAtF] at h
      rw [dirPathsF]
      by_cases hd : d = m
      · rw [if_pos hd] at h
        subst hd
        have hmem := mem_dirPaths_of_subtree t r' t' n h hn
        exact List.mem_cons_of_mem _
          (List.mem_append_left _ (List.mem_map.mpr ⟨r' ++ [n], hmem, rfl⟩))
      · rw [if_neg hd] at h
        exact List.mem_cons_of_mem _
          (List.mem_append_right _ (memF_dirPaths_of_subtreeF rest m r' t' n h hn))
end

mutual
theorem dirPaths_last : ∀ (t : FsTree) (r : PathKey), wfT t = true → r ∈ dirPaths t →
    ∃ r' n t', r = r' ++ [n] ∧ subtreeAt t r' = some t' ∧
      n ∈ forestNames t'.subdirsOf
  | .node files sds, r, hwf, hr => by
      obtain ⟨hnd, _, hwfF⟩ := wfT_node_elim files sds hwf
      rw [dirPaths] at hr
      rcases dirPathsF_last sds r hwfF hnd hr with ⟨n, rfl, hn⟩ |
        ⟨d, r₁, n, t', rfl, hsub, hn⟩
      · refine ⟨[], n, .node files sds, by rw [List.nil_append], by rw [subtreeAt], hn⟩
      · exact ⟨d :: r₁, n, t', rfl, by rw [subtreeAt]; exact hsub, hn⟩

theorem dirPathsF_last : ∀ (f : FsForest) (r : PathKey), wfF f = true →
    nodupB (forestNames f) = true → r ∈ dirPathsF f →
    (∃ n, r = [n] ∧ n ∈ forestNames f) ∨
    (∃ d r₁ n t', r = (d :: r₁) ++ [n] ∧ subtreeAtF f d r₁ = some t' ∧
      n ∈ forestNames t'.subdirsOf)
  | .nil, r, _, _, h => by cases h
  | .cons d₀ t rest, r, hwf, hnd, h => by
      obtain ⟨hwt, hwr⟩ := wfF_cons_elim d₀ t rest hwf
      obtain ⟨hd₀, hndr⟩ := nodupB_cons_elim d₀ (forestNames rest) hnd
      rw [dirPathsF] at h
      rcases List.mem_cons.mp h with h1 | h2
      · exact Or.inl ⟨d₀, h1, List.mem_cons_self _ _⟩
      · rcases List.mem_append.mp h2 with h3 | h4
        · obtain ⟨r₀, hr₀, he⟩ := List.mem_map.mp h3
          subst he
          obtain ⟨r', n, t', rfl, hsub, hn⟩ := dirPaths_last t r₀ hwt hr₀
          right
          refine ⟨d₀, r', n, t', by rw [List.cons_append], ?_, hn⟩
          rw [subtreeAtF, if_pos rfl]
          exact hsub
        · rcases dirPathsF_last rest r hwr hndr h4 with ⟨n, rfl, hn⟩ |
            ⟨d, r₁, n, t', rfl, hsub, hn⟩
          · exact Or.inl ⟨n, rfl, List.mem_cons_of_mem _ hn⟩
          · right
            have hd_in : d ∈ forestNames rest := by
              obtain ⟨dd, rr, he, hdd⟩ := dirPathsF_head rest ((d :: r₁) ++ [n]) h4
              rw [List.cons_append] at he
              obtain ⟨ha, _⟩ := List.cons.inj he
              exact ha ▸ hdd
            have hne : ¬ (d₀ = d) := fun e => hd₀ (e ▸ hd_in)
            exact ⟨d, r₁, n, t', rfl, by rw [subtreeAtF, if_neg hne]; exact hsub, hn⟩
end

mutual
theorem wfT_subtree : ∀ (t : FsTree) (r : PathKey) (t' : FsTree),
    wfT t = true → subtreeAt t r = some t' → wfT t' = true
  | .node files sds, [], t', hwf, h => by
      have ht : FsTree.node files sds = t' := Option.some.inj h
      exact ht ▸ hwf
  | .node files sds, n :: r', t', hwf, h => by
      obtain ⟨_, _, hwfF⟩ := wfT_node_elim files sds hwf
      exact wfF_subtree sds n r' t' hwfF (by rw [subtreeAt] at h; exact h)

theorem wfF_subtree : ∀ (f : FsForest) (n : String) (r' : PathKey) (t' : FsTree),
    wfF f = true → subtreeAtF f n r' = some t' → wfT t' = true
  | .nil, _, _, _, _, h => by
      rw [subtreeAtF] at h
      exact Option.noConfusion h
  | .cons d t rest, n, r', t', hwf, h => by
      obtain ⟨hwt, hwr⟩ := wfF_cons_elim d t rest hwf
      rw [subtreeAtF] at h
      by_cases hd : d = n
      · rw [if_pos hd] at h
        exact wfT_subtree t r' t' hwt h
      · rw [if_neg hd] at h
        exact wfF_subtree rest n r' t' hwr h
end

mutual
theorem treeWarnings_subtree (cfg : ScanConfig) :
    ∀ (t : FsTree) (P r : PathKey) (t' : FsTree) (w : ScanWarning),
    subtreeAt t r = some t' → w ∈ treeWarnings cfg (P ++ r) t' →
    w ∈ treeWarnings cfg P t
  | .node files sds, P, [], t', w, h, hw => by
      have ht : FsTree.node files sds = t' := Option.some.inj h
      subst ht
      rw [List.append_nil] at hw
      exact hw
  | .node files sds, P, n :: r', t', w, h, hw => by
      rw [treeWarnings]
      exact List.mem_append_right _
        (forestWarnings_subtree cfg sds P n r' t' w (by rw [subtreeAt] at h; exact h) hw)

theorem forestWarnings_subtree (cfg : ScanConfig) :
    ∀ (f : FsForest) (P : PathKey) (n : String) (r' : PathKey) (t' : FsTree)
      (w : ScanWarning),
    subtreeAtF f n r' = some t' → w ∈ treeWarnings cfg (P ++ n :: r') t' →
    w ∈ forestWarnings cfg P f
  | .nil, P, n, r', t', w, h, _ => by
      rw [subtreeAtF] at h
      exact Option.noConfusion h
  | .cons d t rest, P, n, r', t', w, h, hw => by
      rw [subtreeAtF] at h
      rw [forestWarnings]
      by_cases hd : d = n
      · rw [if_pos hd] at h
        subst hd
        apply List.mem_append_left
        apply treeWarnings_subtree cfg t (P ++ [d]) r' t' w h
        have ha : (P ++ [d]) ++ r' = P ++ d :: r' := by
          rw [List.append_assoc]
          rfl
        rw [ha]
        exact hw
      · rw [if_neg hd] at h
        exact List.mem_append_right _
          (forestWarnings_subtree cfg rest P n r' t' w h hw)
end

/-! ### Characterization of the walk phases -/

theorem append_singleton_ne (P : PathKey) (d : String) : ¬ (P = P ++ [d]) := by
  intro e
  have hl := congrArg List.length e
  simp at hl

theorem append_ne_self_of_ne_nil (P : PathKey) (r : PathKey) (h : r ≠ []) :
    ¬ (P ++ r = P) := by
  intro e
  have hl := congrArg List.length e
  rw [List.length_append] at hl
  have : r.length = 0 := by omega
  exact h (List.eq_nil_of_length_eq_zero this)

theorem append_singleton_inj (P : PathKey) (a b : String) (h : P ++ [a] = P ++ [b]) :
    a = b :=
  (List.cons.inj (List.append_cancel_left h)).1

theorem alistLookup_append_orO {α β : Type} [DecidableEq α]
    (a b : List (α × β)) (k : α) :
    alistLookup (a ++ b) k = orO (alistLookup a k) (alistLookup b k) := by
  rw [alistLookup_append]
  cases alistLookup a k <;> rfl

theorem specIndexF_lookup_self (cfg : ScanConfig) (parts : PathKey) (f : FsForest) :
    alistLookup (specIndexF cfg parts f) parts = none := by
  cases hl : alistLookup (specIndexF cfg parts f) parts with
  | none => rfl
  | some v =>
      exfalso
      obtain ⟨r, hr, he⟩ := specIndexF_keys cfg f parts parts (by rw [hl]; rfl)
      obtain ⟨dd, rr, rfl, _⟩ := dirPathsF_head f r hr
      have hlen := congrArg List.length he
      simp at hlen

theorem addSubdirs_char : ∀ (f : FsForest) (parts : PathKey) (idx : Index) (mp : NodeMap),
    nodupB (forestNames f) = true →
    (∀ d ∈ forestNames f, alistLookup mp d = none) →
    (∀ d ∈ forestNames f, alistLookup idx (parts ++ [d]) = none) →
    alistLookup idx parts = some mp →
    alistLookup (addSubdirs parts f idx) parts = some (mp ++ subdirEntriesF parts f) ∧
    (∀ d ∈ forestNames f, alistLookup (addSubdirs parts f idx) (parts ++ [d]) = some []) ∧
    (∀ q, q ≠ parts → (∀ d ∈ forestNames f, q ≠ parts ++ [d]) →
      alistLookup (addSubdirs parts f idx) q = alistLookup idx q)
  | .nil, parts, idx, mp, _, _, _, hp => by
      refine ⟨?_, ?_, fun q _ _ => rfl⟩
      · rw [addSubdirs, subdirEntriesF, List.append_nil]
        exact hp
      · intro d hd
        rw [forestNames] at hd
        cases hd
  | .cons d t rest, parts, idx, mp, hnd, hmp, hfresh, hp => by
      obtain ⟨hdmem, hndr⟩ := nodupB_cons_elim d (forestNames rest) hnd
      have hPne : ¬ (parts = parts ++ [d]) := append_singleton_ne parts d
      have hPne' : parts ++ [d] ≠ parts := fun e => hPne e.symm
      -- the two dict assignments of the loop body
      have hidx1 : alistLookup (alistInsert idx (parts ++ [d]) []) parts = some mp := by
        rw [alistLookup_insert_ne idx (parts ++ [d]) parts [] hPne]
        exact hp
      have hset : indexSetEntry (alistInsert idx (parts ++ [d]) []) parts d
          (.subdirectory (parts ++ [d])) =
          alistInsert (alistInsert idx (parts ++ [d]) []) parts
            (mp ++ [(d, Entry.subdirectory (parts ++ [d]))]) := by
        simp only [indexSetEntry, hidx1]
        rw [alistInsert_fresh mp d _ (hmp d (List.mem_cons_self _ _))]
      rw [addSubdirs, hset]
      -- the index after the body, before the recursive processing
      have hq_parts : alistLookup
          (alistInsert (alistInsert idx (parts ++ [d]) []) parts
            (mp ++ [(d, Entry.subdirectory (parts ++ [d]))])) parts =
          some (mp ++ [(d, Entry.subdirectory (parts ++ [d]))]) :=
        alistLookup_insert_self ..
      have hq_child : alistLookup
          (alistInsert (alistInsert idx (parts ++ [d]) []) parts
            (mp ++ [(d, Entry.subdirectory (parts ++ [d]))])) (parts ++ [d]) =
          some [] := by
        rw [alistLookup_insert_ne _ parts _ _ hPne']
        exact alistLookup_insert_self ..
      have hq_other : ∀ q, q ≠ parts → q ≠ parts ++ [d] →
          alistLookup (alistInsert (alistInsert idx (parts ++ [d]) []) parts
            (mp ++ [(d, Entry.subdirectory (parts ++ [d]))])) q =
          alistLookup idx q := by
        intro q h1 h2
        rw [alistLookup_insert_ne _ parts q _ h1, alistLookup_insert_ne _ _ q _ h2]
      -- recursive call
      obtain ⟨ih1, ih2, ih3⟩ := addSubdirs_char rest parts _
        (mp ++ [(d, Entry.subdirectory (parts ++ [d]))]) hndr
        (fun d' hd' => by
          rw [alistLookup_append_orO, hmp d' (List.mem_cons_of_mem _ hd'), orO_none,
            alistLookup_cons,
            if_neg (show ¬ d = d' by
              intro e
              rw [e] at hdmem
              exact hdmem hd')]
          rfl)
        (fun d' hd' => by
          rw [hq_other (parts ++ [d'])
            (append_ne_self_of_ne_nil parts [d'] (List.cons_ne_nil _ _))
            (show parts ++ [d'] ≠ parts ++ [d] by
              intro e
              rw [append_singleton_inj parts d' d e] at hd'
              exact hdmem hd')]
          exact hfresh d' (List.mem_cons_of_mem _ hd'))
        hq_parts
      refine ⟨?_, ?_, ?_⟩
      · rw [ih1, List.append_assoc]
        rfl
      · intro d' hd'
        rcases List.mem_cons.mp hd' with h1 | h1
        · subst h1
          rw [ih3 (parts ++ [d'])
            (append_ne_self_of_ne_nil parts [d'] (List.cons_ne_nil _ _))
            (fun d'' hd'' => show parts ++ [d'] ≠ parts ++ [d''] by
              intro e
              rw [append_singleton_inj parts d' d'' e] at hdmem
              exact hdmem hd'')]
          exact hq_child
        · exact ih2 d' h1
      · intro q h1 h2
        rw [ih3 q h1 (fun d'' hd'' => h2 d'' (List.mem_cons_of_mem _ hd''))]
        exact hq_other q h1 (h2 d (List.mem_cons_self _ _))

theorem addFiles_char (cfg : ScanConfig) (parts : PathKey) :
    ∀ (files : List String) (s : ScanState) (mp : NodeMap),
    alistLookup s.index parts = some mp →
    (addFiles cfg parts files s).warnings = s.warnings ++ fileWarnings cfg parts files ∧
    alistLookup (addFiles cfg parts files s).index parts =
      some (files.foldl (fileStep cfg parts) mp) ∧
    (∀ q, q ≠ parts → alistLookup (addFiles cfg parts files s).index q =
      alistLookup s.index q)
  | [], s, mp, h => by
      refine ⟨?_, ?_, fun q _ => rfl⟩
      · rw [addFiles, fileWarnings, List.filterMap_nil, List.append_nil]
      · rw [addFiles, List.foldl_nil]
        exact h
  | f :: rest, s, mp, h => by
      rw [addFiles]
      cases hrf : readerFactoryForFile cfg parts f with
      | ok e =>
          have hset : indexSetEntry s.index parts f e =
              alistInsert s.index parts (alistInsert mp f e) := by
            rw [indexSetEntry, h]
          obtain ⟨ih1, ih2, ih3⟩ := addFiles_char cfg parts rest
            { s with index := indexSetEntry s.index parts f e } (alistInsert mp f e)
            (by
              show alistLookup (indexSetEntry s.index parts f e) parts = _
              rw [hset]
              exact alistLookup_insert_self ..)
          refine ⟨?_, ?_, ?_⟩
          · rw [ih1]
            simp only [fileWarnings, List.filterMap_cons, hrf]
          · rw [ih2]
            simp only [List.foldl_cons, fileStep, hrf]
          · intro q hq
            rw [ih3 q hq]
            show alistLookup (indexSetEntry s.index parts f e) q = alistLookup s.index q
            rw [hset]
            exact alistLookup_insert_ne _ _ _ _ hq
      | error w =>
          obtain ⟨ih1, ih2, ih3⟩ := addFiles_char cfg parts rest
            { s with warnings := s.warnings ++ [w] } mp h
          refine ⟨?_, ?_, ?_⟩
          · rw [ih1]
            simp only [fileWarnings, List.filterMap_cons, hrf, List.append_assoc,
              List.singleton_append]
          · rw [ih2]
            simp only [List.foldl_cons, fileStep, hrf]
          · exact fun q hq => ih3 q hq

theorem dirPaths_head (t : FsTree) (r : PathKey) (h : r ∈ dirPaths t) :
    ∃ d r', r = d :: r' := by
  cases t with
  | node files sds =>
      rw [dirPaths] at h
      obtain ⟨d, r', hr, _⟩ := dirPathsF_head sds r h
      exact ⟨d, r', hr⟩

/-! ### The full characterization of the scan -/

theorem scanDir_node (cfg : ScanConfig) (parts : PathKey) (files : List String)
    (sds : FsForest) (s : ScanState) :
    scanDir cfg parts (.node files sds) s =
      scanForest cfg parts sds
        (addFiles cfg parts files { s with index := addSubdirs parts sds s.index }) := rfl

theorem scanForest_nil (cfg : ScanConfig) (parts : PathKey) (s : ScanState) :
    scanForest cfg parts .nil s = s := by
  rw [scanForest]

theorem scanForest_cons (cfg : ScanConfig) (parts : PathKey) (d : String) (t : FsTree)
    (rest : FsForest) (s : ScanState) :
    scanForest cfg parts (.cons d t rest) s =
      scanForest cfg parts rest (scanDir cfg (parts ++ [d]) t s) := by
  cases t with
  | node files sds => rw [scanForest, scanDir]

mutual
theorem scanDir_char (cfg : ScanConfig) : ∀ (t : FsTree) (parts : PathKey) (s : ScanState),
    wfT t = true →
    alistLookup s.index parts = some [] →
    (∀ r ∈ dirPaths t, alistLookup s.index (parts ++ r) = none) →
    (scanDir cfg parts t s).warnings = s.warnings ++ treeWarnings cfg parts t ∧
    (∀ q, alistLookup (scanDir cfg parts t s).index q =
      orO (alistLookup (specIndex cfg parts t) q) (alistLookup s.index q))
  | .node files sds, parts, s, hwf, hp, hfresh => by
      obtain ⟨hnd, hfl, hwfF⟩ := wfT_node_elim files sds hwf
      rw [scanDir_node]
      obtain ⟨hs1, hs2, hs3⟩ := addSubdirs_char sds parts s.index [] hnd
        (fun d _ => rfl)
        (fun d hd => hfresh [d] (by rw [dirPaths]; exact mem_dirPathsF_of_name sds d hd))
        hp
      obtain ⟨hf1, hf2, hf3⟩ := addFiles_char cfg parts files
        { s with index := addSubdirs parts sds s.index } ([] ++ subdirEntriesF parts sds)
        hs1
      obtain ⟨hw1, hw2⟩ := scanForest_char cfg sds parts
        (addFiles cfg parts files { s with index := addSubdirs parts sds s.index })
        hwfF hnd
        (fun d hd => by
          rw [hf3 (parts ++ [d]) (append_ne_self_of_ne_nil parts [d] (List.cons_ne_nil _ _))]
          exact hs2 d hd)
        (fun r hr h2len => by
          obtain ⟨dd, rr, rfl, _⟩ := dirPathsF_head sds r hr
          rw [hf3 (parts ++ dd :: rr)
              (append_ne_self_of_ne_nil parts _ (List.cons_ne_nil _ _)),
            hs3 (parts ++ dd :: rr)
              (append_ne_self_of_ne_nil parts _ (List.cons_ne_nil _ _))
              (fun d'' hd'' => by
                intro e
                have h3 : dd :: rr = [d''] := List.append_cancel_left e
                rw [h3] at h2len
                simp at h2len)]
          exact hfresh (dd :: rr) (by rw [dirPaths]; exact hr))
      refine ⟨?_, ?_⟩
      · rw [hw1, hf1, treeWarnings, List.append_assoc]
      · intro q
        by_cases hq : parts = q
        · subst hq
          rw [hw2 parts, specIndexF_lookup_self cfg parts sds, orO_none, hf2,
            specIndex, alistLookup_cons, if_pos rfl, List.nil_append, orO_some,
            nodeMapOf]
        · rw [hw2 q, specIndex, alistLookup_cons, if_neg hq]
          cases hl : alistLookup (specIndexF cfg parts sds) q with
          | some v => rw [orO_some, orO_some]
          | none =>
              rw [orO_none, orO_none]
              have hq1 : q ≠ parts := fun e => hq e.symm
              rw [hf3 q hq1]
              show alistLookup (addSubdirs parts sds s.index) q = alistLookup s.index q
              apply hs3 q hq1
              intro d'' hd'' e
              subst e
              obtain ⟨t', ht'⟩ := dirPathsF_subtree_exists sds d'' [] hwfF hnd
                (mem_dirPathsF_of_name sds d'' hd'')
              have hsome := specIndexF_lookup_subtree cfg sds parts d'' [] t' ht'
              rw [hl] at hsome
              exact Option.noConfusion hsome

theorem scanForest_char (cfg : ScanConfig) :
    ∀ (f : FsForest) (parts : PathKey) (s : ScanState),
    wfF f = true → nodupB (forestNames f) = true →
    (∀ d ∈ forestNames f, alistLookup s.index (parts ++ [d]) = some []) →
    (∀ r ∈ dirPathsF f, 2 ≤ r.length → alistLookup s.index (parts ++ r) = none) →
    (scanForest cfg parts f s).warnings = s.warnings ++ forestWarnings cfg parts f ∧
    (∀ q, alistLookup (scanForest cfg parts f s).index q =
      orO (alistLookup (specIndexF cfg parts f) q) (alistLookup s.index q))
  | .nil, parts, s, _, _, _, _ => by
      refine ⟨?_, fun q => ?_⟩
      · rw [scanForest_nil, forestWarnings, List.append_nil]
      · rw [scanForest_nil, specIndexF]
        rfl
  | .cons d t rest, parts, s, hwf, hnd, hnames, hdeep => by
      obtain ⟨hwt, hwr⟩ := wfF_cons_elim d t rest hwf
      obtain ⟨hdmem, hndr⟩ := nodupB_cons_elim d (forestNames rest) hnd
      rw [scanForest_cons]
      obtain ⟨hc1, hc2⟩ := scanDir_char cfg t (parts ++ [d]) s hwt
        (hnames d (List.mem_cons_self _ _))
        (fun r hr => by
          obtain ⟨dd, rr, rfl⟩ := dirPaths_head t r hr
          have hmem : (d :: dd :: rr) ∈ dirPathsF (.cons d t rest) := by
            rw [dirPathsF]
            exact List.mem_cons_of_mem _
              (List.mem_append_left _ (List.mem_map.mpr ⟨dd :: rr, hr, rfl⟩))
          have hlk := hdeep (d :: dd :: rr) hmem (by simp)
          rw [List.append_assoc]
          exact hlk)
      obtain ⟨hf1, hf2⟩ := scanForest_char cfg rest parts
        (scanDir cfg (parts ++ [d]) t s) hwr hndr
        (fun d' hd' => by
          rw [hc2 (parts ++ [d'])]
          have hnone : alistLookup (specIndex cfg (parts ++ [d]) t) (parts ++ [d']) =
              none := by
            cases hl : alistLookup (specIndex cfg (parts ++ [d]) t) (parts ++ [d']) with
            | none => rfl
            | some v =>
                exfalso
                rcases specIndex_keys cfg t (parts ++ [d]) (parts ++ [d'])
                  (by rw [hl]; rfl) with h2 | ⟨r, hr, h2⟩
                · rw [append_singleton_inj parts d' d h2] at hd'
                  exact hdmem hd'
                · rw [List.append_assoc] at h2
                  have h3 : [d'] = [d] ++ r := List.append_cancel_left h2
                  obtain ⟨dd, rr, rfl⟩ := dirPaths_head t r hr
                  have hlen := congrArg List.length h3
                  simp at hlen
          rw [hnone, orO_none]
          exact hnames d' (List.mem_cons_of_mem _ hd'))
        (fun r hr h2len => by
          rw [hc2 (parts ++ r)]
          obtain ⟨dd, rr, rfl, hddmem⟩ := dirPathsF_head rest r hr
          have hnone : alistLookup (specIndex cfg (parts ++ [d]) t)
              (parts ++ dd :: rr) = none := by
            cases hl : alistLookup (specIndex cfg (parts ++ [d]) t)
                (parts ++ dd :: rr) with
            | none => rfl
            | some v =>
                exfalso
                rcases specIndex_keys cfg t (parts ++ [d]) (parts ++ dd :: rr)
                  (by rw [hl]; rfl) with h2 | ⟨r', hr', h2⟩
                · have h3 : dd :: rr = [d] := List.append_cancel_left h2
                  rw [h3] at h2len
                  simp at h2len
                · rw [List.append_assoc] at h2
                  have h3 : dd :: rr = [d] ++ r' := List.append_cancel_left h2
                  have hdd : dd = d := (List.cons.inj h3).1
                  rw [hdd] at hddmem
                  exact hdmem hddmem
          rw [hnone, orO_none]
          exact hdeep (dd :: rr)
            (by
              rw [dirPathsF]
              exact List.mem_cons_of_mem _ (List.mem_append_right _ hr)) h2len)
      refine ⟨?_, ?_⟩
      · rw [hf1, hc1, forestWarnings, List.append_assoc]
      · intro q
        rw [hf2 q, hc2 q, specIndexF, alistLookup_append_orO, orO_assoc]
        apply orO_comm_of_disjoint
        intro hsome
        obtain ⟨r, hr, rfl⟩ := specIndexF_keys cfg rest parts q hsome
        obtain ⟨dd, rr, rfl, hddmem⟩ := dirPathsF_head rest r hr
        cases hl : alistLookup (specIndex cfg (parts ++ [d]) t) (parts ++ dd :: rr) with
        | none => rfl
        | some v =>
            exfalso
            rcases specIndex_keys cfg t (parts ++ [d]) (parts ++ dd :: rr)
              (by rw [hl]; rfl) with h2 | ⟨r', hr', h2⟩
            · have h3 : dd :: rr = [d] := List.append_cancel_left h2
              have hdd : dd = d := (List.cons.inj h3).1
              rw [hdd] at hddmem
              exact hdmem hddmem
            · rw [List.append_assoc] at h2
              have h3 : dd :: rr = [d] ++ r' := List.append_cancel_left h2
              have hdd : dd = d := (List.cons.inj h3).1
              rw [hdd] at hddmem
              exact hdmem hddmem
end

/-! ### The structural invariant: bridge lemmas -/

theorem structInvB_iff (idx : Index) :
    structInvB idx = true ↔
    ∀ p, (alistLookup idx p).isSome = true →
      (dir1check idx p = true ∧ dir2check idx p = true) := by
  rw [structInvB, List.all_eq_true]
  constructor
  · intro h p hp
    cases hl : alistLookup idx p with
    | none =>
        rw [hl] at hp
        exact Bool.noConfusion hp
    | some nm =>
        have hmem := mem_of_alistLookup_eq_some idx p nm hl
        exact Bool.and_eq_true_iff.mp (h (p, nm) hmem)
  · intro h pr hmem
    have hs := alistLookup_isSome_of_mem idx pr hmem
    obtain ⟨h1, h2⟩ := h pr.1 hs
    rw [h1, h2]
    rfl

theorem dir1check_nil (idx : Index) : dir1check idx [] = true := rfl

theorem dir1check_intro (idx : Index) (p : PathKey) (n : String) (pm : NodeMap)
    (hlast : p.getLast? = some n)
    (hparent : alistLookup idx p.dropLast = some pm)
    (hentry : alistLookup pm n = some (.subdirectory p)) :
    dir1check idx p = true := by
  simp only [dir1check, hlast, hparent, hentry]
  exact decide_eq_true trivial

theorem dir1check_elim (idx : Index) (p : PathKey) (n : String)
    (h : dir1check idx p = true) (hlast : p.getLast? = some n) :
    ∃ pm, alistLookup idx p.dropLast = some pm ∧
      alistLookup pm n = some (.subdirectory p) := by
  rw [dir1check, hlast] at h
  cases hpm : alistLookup idx p.dropLast with
  | none =>
      rw [hpm] at h
      exact Bool.noConfusion h
  | some pm =>
      rw [hpm] at h
      exact ⟨pm, rfl, of_decide_eq_true h⟩

theorem dir2check_intro (idx : Index) (p : PathKey)
    (h : ∀ nm, alistLookup idx p = some nm → ∀ n q,
      (n, Entry.subdirectory q) ∈ nm →
      q = p ++ [n] ∧ (alistLookup idx q).isSome = true) :
    dir2check idx p = true := by
  rw [dir2check]
  cases hl : alistLookup idx p with
  | none => rfl
  | some nm =>
      apply List.all_eq_true.mpr
      intro ne hmem
      obtain ⟨n, e⟩ := ne
      cases e with
      | readableFile rd fp => rfl
      | subdirectory q =>
          obtain ⟨hq, hs⟩ := h nm hl n q hmem
          subst hq
          simp [hs]

theorem dir2check_elim (idx : Index) (p : PathKey) (nm : NodeMap)
    (h : dir2check idx p = true) (hl : alistLookup idx p = some nm)
    (n : String) (q : PathKey) (hmem : (n, Entry.subdirectory q) ∈ nm) :
    q = p ++ [n] ∧ (alistLookup idx q).isSome = true := by
  rw [dir2check, hl] at h
  have hx := List.all_eq_true.mp h (n, Entry.subdirectory q) hmem
  obtain ⟨h1, h2⟩ := Bool.and_eq_true_iff.mp hx
  exact ⟨of_decide_eq_true h1, h2⟩

theorem nodeMapOf_subdir_mem (cfg : ScanConfig) (P : PathKey) (files : List String)
    (sds : FsForest) (n : String) (q : PathKey)
    (h : (n, Entry.subdirectory q) ∈ nodeMapOf cfg P (.node files sds)) :
    n ∈ forestNames sds ∧ q = P ++ [n] := by
  rw [nodeMapOf] at h
  have h2 := mem_foldl_fileStep_subdir cfg P files _ n q h
  obtain ⟨d, hd, he⟩ := mem_subdirEntriesF sds P _ h2
  obtain ⟨h3, h4⟩ := Prod.mk.inj he
  subst h3
  exact ⟨hd, Entry.subdirectory.inj h4⟩

theorem nodeMapOf_subdir_lookup (cfg : ScanConfig) (P : PathKey) (files : List String)
    (sds : FsForest) (n : String)
    (hwf : wfT (.node files sds) = true) (hn : n ∈ forestNames sds) :
    alistLookup (nodeMapOf cfg P (.node files sds)) n =
      some (Entry.subdirectory (P ++ [n])) := by
  obtain ⟨_, hfl, _⟩ := wfT_node_elim files sds hwf
  rw [nodeMapOf]
  rw [foldl_fileStep_notmem cfg P files _ n (fun hmem => hfl n hmem hn)]
  exact alistLookup_subdirEntriesF_mem sds P n hn

/-! ### The scan at the top level -/

theorem scan_char (cfg : ScanConfig) (t : FsTree) (hwf : wfT t = true) :
    (scan cfg t).warnings = treeWarnings cfg [] t ∧
    (∀ q, alistLookup (scan cfg t).index q =
      orO (alistLookup (specIndex cfg [] t) q)
        (alistLookup [(([] : PathKey), ([] : NodeMap))] q)) := by
  obtain ⟨h1, h2⟩ := scanDir_char cfg t [] ⟨[([], [])], []⟩ hwf rfl
    (fun r hr => by
      obtain ⟨d, r', rfl⟩ := dirPaths_head t r hr
      rfl)
  constructor
  · rw [scan, h1]
    rfl
  · intro q
    rw [scan, h2 q]

theorem scan_lookup_subtree (cfg : ScanConfig) (t : FsTree) (hwf : wfT t = true)
    (p : PathKey) (t' : FsTree) (hsub : subtreeAt t p = some t') :
    alistLookup (scan cfg t).index p = some (nodeMapOf cfg p t') := by
  obtain ⟨_, h2⟩ := scan_char cfg t hwf
  rw [h2 p]
  have hs := specIndex_lookup_subtree cfg t [] p t' hsub
  rw [List.nil_append] at hs
  rw [hs, orO_some]

theorem scan_key_cases (cfg : ScanConfig) (t : FsTree) (hwf : wfT t = true)
    (p : PathKey) (hp : (alistLookup (scan cfg t).index p).isSome = true) :
    p = [] ∨ p ∈ dirPaths t := by
  obtain ⟨_, h2⟩ := scan_char cfg t hwf
  rw [h2 p] at hp
  rcases (orO_isSome _ _).mp hp with h | h
  · rcases specIndex_keys cfg t [] p h with h1 | ⟨r, hr, h1⟩
    · exact Or.inl h1
    · rw [List.nil_append] at h1
      exact Or.inr (h1 ▸ hr)
  · rw [alistLookup_cons] at h
    by_cases hq : ([] : PathKey) = p
    · exact Or.inl hq.symm
    · rw [if_neg hq] at h
      exact Bool.noConfusion h

/-- The initial scan of a well-formed directory tree establishes the
bidirectional structural invariant. -/
theorem scan_establishes_invariant (cfg : ScanConfig) (t : FsTree)
    (hwf : wfT t = true) : structInvB (scan cfg t).index = true := by
  apply (structInvB_iff _).mpr
  intro p hp
  -- every key of the scanned index is the root or a directory path of `t`
  have hcases := scan_key_cases cfg t hwf p hp
  -- and every such key has a subtree and carries that subtree's node map
  have hsub : ∃ t', subtreeAt t p = some t' := by
    rcases hcases with rfl | hmem
    · exact ⟨t, by rw [subtreeAt]⟩
    · exact dirPaths_subtree_exists t p hwf hmem
  obtain ⟨t', ht'⟩ := hsub
  have hwf' : wfT t' = true := wfT_subtree t p t' hwf ht'
  cases t' with
  | node filesP sdsP =>
      have hlp : alistLookup (scan cfg t).index p =
          some (nodeMapOf cfg p (.node filesP sdsP)) :=
        scan_lookup_subtree cfg t hwf p _ ht'
      constructor
      · -- direction one
        rcases hcases with rfl | hmem
        · exact dir1check_nil _
        · obtain ⟨r', n, tq, rfl, hsubq, hn⟩ := dirPaths_last t p hwf hmem
          cases tq with
          | node filesQ sdsQ =>
              have hwfQ : wfT (FsTree.node filesQ sdsQ) = true :=
                wfT_subtree t r' _ hwf hsubq
              apply dir1check_intro _ _ n (nodeMapOf cfg r' (.node filesQ sdsQ))
              · exact List.getLast?_concat _
              · rw [List.dropLast_concat]
                exact scan_lookup_subtree cfg t hwf r' _ hsubq
              · exact nodeMapOf_subdir_lookup cfg r' filesQ sdsQ n hwfQ hn
      · -- direction two
        apply dir2check_intro
        intro nm hl n q hmem
        rw [hlp] at hl
        have hnm := Option.some.inj hl
        subst hnm
        obtain ⟨hnmem, hq⟩ := nodeMapOf_subdir_mem cfg p filesP sdsP n q hmem
        refine ⟨hq, ?_⟩
        subst hq
        have hdp : (p ++ [n]) ∈ dirPaths t :=
          mem_dirPaths_of_subtree t p _ n ht' hnmem
        obtain ⟨tc, htc⟩ := dirPaths_subtree_exists t (p ++ [n]) hwf hdp
        rw [scan_lookup_subtree cfg t hwf (p ++ [n]) tc htc]
        rfl

/-- Applying one change event preserves the structural invariant, except
when it is a `Deleted` event whose removed entry is a subdirectory entry. -/
theorem processChange_preserves_invariant (idx idx' : Index) (ev : ChangeEvent)
    (hinv : structInvB idx = true)
    (hok : processChange idx ev = .ok idx')
    (hnotsub : ∀ nm q, alistLookup idx ev.parentParts = some nm →
        alistLookup nm ev.name ≠ some (.subdirectory q)) :
    structInvB idx' = true := by
  cases hdir : ev.isDir with
  | true =>
      rw [processChange, if_pos hdir] at hok
      exact Except.noConfusion hok
  | false =>
      rw [processChange,
        if_neg (by rw [hdir]; exact Bool.false_ne_true)] at hok
      cases hkind : ev.kind with
      | added =>
          simp only [hkind] at hok
          exact Except.noConfusion hok
      | modified =>
          simp only [hkind] at hok
          have he := Except.ok.inj hok
          subst he
          exact hinv
      | deleted =>
          simp only [hkind] at hok
          cases hpp : alistLookup idx ev.parentParts with
          | none =>
              simp only [hpp] at hok
              exact Except.noConfusion hok
          | some nm =>
              simp only [hpp] at hok
              cases hname : alistLookup nm ev.name with
              | none =>
                  simp only [hname] at hok
                  exact Except.noConfusion hok
              | some e =>
                  simp only [hname] at hok
                  have hidx' : idx' =
                      alistInsert idx ev.parentParts (alistErase nm ev.name) :=
                    (Except.ok.inj hok).symm
                  subst hidx'
                  have hery : ∀ q, e ≠ Entry.subdirectory q := by
                    intro q he
                    exact hnotsub nm q hpp (by rw [hname, he])
                  have hlk : ∀ p,
                      alistLookup (alistInsert idx ev.parentParts
                        (alistErase nm ev.name)) p =
                      if p = ev.parentParts then some (alistErase nm ev.name)
                      else alistLookup idx p := by
                    intro p
                    by_cases hp : p = ev.parentParts
                    · rw [if_pos hp, hp]
                      exact alistLookup_insert_self ..
                    · rw [if_neg hp]
                      exact alistLookup_insert_ne _ _ _ _ hp
                  have hsome_pres : ∀ p, (alistLookup idx p).isSome = true →
                      (alistLookup (alistInsert idx ev.parentParts
                        (alistErase nm ev.name)) p).isSome = true := by
                    intro p hps
                    rw [hlk p]
                    by_cases hpe : p = ev.parentParts
                    · rw [if_pos hpe]
                      rfl
                    · rw [if_neg hpe]
                      exact hps
                  apply (structInvB_iff _).mpr
                  intro p hp
                  have hpold : (alistLookup idx p).isSome = true := by
                    rw [hlk p] at hp
                    by_cases hpe : p = ev.parentParts
                    · rw [hpe, hpp]
                      rfl
                    · rw [if_neg hpe] at hp
                      exact hp
                  obtain ⟨hd1, hd2⟩ := (structInvB_iff idx).mp hinv p hpold
                  constructor
                  · cases hlast : p.getLast? with
                    | none => rw [dir1check, hlast]
                    | some n =>
                        obtain ⟨pm, hpm, hentry⟩ := dir1check_elim idx p n hd1 hlast
                        by_cases hpe : p.dropLast = ev.parentParts
                        · have hpm' : pm = nm := by
                            rw [hpe, hpp] at hpm
                            exact (Option.some.inj hpm).symm
                          subst hpm'
                          have hne : n ≠ ev.name := by
                            intro heq
                            rw [heq, hname] at hentry
                            exact hery p (Option.some.inj hentry)
                          apply dir1check_intro _ p n (alistErase pm ev.name) hlast
                          · rw [hlk p.dropLast, if_pos hpe]
                          · rw [alistLookup_erase_ne pm ev.name n hne]
                            exact hentry
                        · apply dir1check_intro _ p n pm hlast
                          · rw [hlk p.dropLast, if_neg hpe]
                            exact hpm
                          · exact hentry
                  · apply dir2check_intro
                    intro nm2 hl2 n q hmem2
                    rw [hlk p] at hl2
                    by_cases hpe : p = ev.parentParts
                    · rw [if_pos hpe] at hl2
                      have hnm2 : nm2 = alistErase nm ev.name :=
                        (Option.some.inj hl2).symm
                      subst hnm2
                      have hmem3 : (n, Entry.subdirectory q) ∈ nm :=
                        mem_alistErase nm ev.name _ hmem2
                      obtain ⟨hq, hs⟩ := dir2check_elim idx p nm hd2
                        (by rw [hpe]; exact hpp) n q hmem3
                      exact ⟨hq, hsome_pres q hs⟩
                    · rw [if_neg hpe] at hl2
                      obtain ⟨hq, hs⟩ := dir2check_elim idx p nm2 hd2 hl2 n q hmem2
                      exact ⟨hq, hsome_pres q hs⟩

/-! ### Claim C3: bidirectional structural consistency -/

/-- C3 counterexample: the claim that the invariant is preserved by every
Watcher event application fails on the code.  Scanning a tree with one
subdirectory `a` yields an index satisfying the invariant, but applying the
single event `Deleted` for the name `a` at the root succeeds (the code pops
the subdirectory entry like any other) and leaves an index in which the
path key `["a"]` is still present while its parent's node map no longer
holds a subdirectory entry for it. -/
theorem c3_counterexample :
    (scan sampleCfg (FsTree.node [] (.cons "a" (.node [] .nil) .nil))).index =
      [([], [("a", Entry.subdirectory ["a"])]), (["a"], [])] ∧
    structInvB [([], [("a", Entry.subdirectory ["a"])]), (["a"], [])] = true ∧
    processChange [([], [("a", Entry.subdirectory ["a"])]), (["a"], [])]
        ⟨.deleted, [], "a", false⟩ = .ok [([], []), (["a"], [])] ∧
    structInvB [([], []), (["a"], [])] = false := by
  refine ⟨by decide, by decide, by decide, by decide⟩

/-- C3 (amended): the invariant holds for the index built by the initial
scan of any well-formed directory tree, and is preserved by every
successful change-event application except a `Deleted` event whose removed
entry is a Subdirectory entry (which removes the entry but leaves the
child path key behind). -/
theorem c3_structural_invariant_amended :
    (∀ (cfg : ScanConfig) (t : FsTree), wfT t = true →
        structInvB (scan cfg t).index = true) ∧
    (∀ (idx idx' : Index) (ev : ChangeEvent),
        structInvB idx = true →
        processChange idx ev = .ok idx' →
        (∀ nm q, alistLookup idx ev.parentParts = some nm →
            alistLookup nm ev.name ≠ some (.subdirectory q)) →
        structInvB idx' = true) :=
  ⟨scan_establishes_invariant,
   fun idx idx' ev h1 h2 h3 => processChange_preserves_invariant idx idx' ev h1 h2 h3⟩

/-- Witness for C3 (amended): the scan of a small tree satisfies the
invariant, and deleting a readable-file entry preserves it. -/
theorem c3_witness :
    structInvB (scan sampleCfg
      (FsTree.node ["b.csv"] (.cons "a" (.node [] .nil) .nil))).index = true ∧
    structInvB [([], [("a", Entry.subdirectory ["a"])]), (["a"], [])] = true := by
  constructor
  · exact c3_structural_invariant_amended.1 sampleCfg _ (by decide)
  · exact c3_structural_invariant_amended.2
      [([], [("a", Entry.subdirectory ["a"]),
             ("b.csv", Entry.readableFile "r" "p")]), (["a"], [])]
      [([], [("a", Entry.subdirectory ["a"])]), (["a"], [])]
      ⟨.deleted, [], "b.csv", false⟩
      (by decide)
      (by decide)
      (by
        intro nm q h
        have hnm := Option.some.inj h
        subst hnm
        intro he
        exact Entry.noConfusion (Option.some.inj he))

/-! ### Claim C7: per-file failures never abort the scan -/

/-- C7: for every file in any directory of a well-formed tree whose MIME
type or reader cannot be resolved, the scan stores no entry for that file
in that directory's node map, the warning emitted for it appears in the
scan's warnings, every directory of the tree is still indexed, and every
other file of the same directory that does resolve still gets its entry
(the per-file failure never aborts the scan). -/
theorem c7_unresolved_file_skipped_scan_continues :
    ∀ (cfg : ScanConfig) (t : FsTree) (r : PathKey) (files : List String)
      (sds : FsForest) (f : String) (w : ScanWarning),
      wfT t = true →
      subtreeAt t r = some (.node files sds) →
      f ∈ files →
      readerFactoryForFile cfg r f = .error w →
      ∃ nm, alistLookup (scan cfg t).index r = some nm ∧
        alistLookup nm f = none ∧
        w ∈ (scan cfg t).warnings ∧
        (∀ r', r' ∈ dirPaths t → (alistLookup (scan cfg t).index r').isSome = true) ∧
        (∀ g e, g ∈ files → readerFactoryForFile cfg r g = .ok e →
            alistLookup nm g = some e) := by
  intro cfg t r files sds f w hwf hsub hf hrf
  have hwf' : wfT (FsTree.node files sds) = true := wfT_subtree t r _ hwf hsub
  obtain ⟨hnd, hfl, hwfF⟩ := wfT_node_elim files sds hwf'
  have hlp := scan_lookup_subtree cfg t hwf r _ hsub
  refine ⟨nodeMapOf cfg r (.node files sds), hlp, ?_, ?_, ?_, ?_⟩
  · rw [nodeMapOf, foldl_fileStep_skip cfg r files _ f w hrf]
    exact alistLookup_subdirEntriesF_notmem sds r f (fun hm => hfl f hf hm)
  · obtain ⟨hw1, _⟩ := scan_char cfg t hwf
    rw [hw1]
    apply treeWarnings_subtree cfg t [] r _ w hsub
    rw [List.nil_append, treeWarnings]
    exact List.mem_append_left _ (mem_fileWarnings cfg r files f w hf hrf)
  · intro r' hr'
    obtain ⟨t', ht'⟩ := dirPaths_subtree_exists t r' hwf hr'
    rw [scan_lookup_subtree cfg t hwf r' t' ht']
    rfl
  · intro g e hg hok
    rw [nodeMapOf]
    exact foldl_fileStep_ok cfg r files _ g e hok (Or.inl hg)

/-- Witness for C7: scanning a root with `a.mystery` (no override, no OS
guess) and `b.csv` skips the former with a warning and still indexes the
latter. -/
theorem c7_witness :
    ∃ nm, alistLookup (scan
        { directory := "root", readersByMimetype := [],
          defaultReaders := DEFAULT_READERS_BY_MIMETYPE, mimetypesByFileExt := [],
          guessType := fun p => if p = "root/b.csv" then some "text/csv" else none }
        (FsTree.node ["a.mystery", "b.csv"] .nil)).index [] = some nm ∧
      alistLookup nm "a.mystery" = none ∧
      ScanWarning.unrecognizedExtension "root/a.mystery" ".mystery" ∈ (scan
        { directory := "root", readersByMimetype := [],
          defaultReaders := DEFAULT_READERS_BY_MIMETYPE, mimetypesByFileExt := [],
          guessType := fun p => if p = "root/b.csv" then some "text/csv" else none }
        (FsTree.node ["a.mystery", "b.csv"] .nil)).warnings ∧
      (∀ r', r' ∈ dirPaths (FsTree.node ["a.mystery", "b.csv"] .nil) →
        (alistLookup (scan
          { directory := "root", readersByMimetype := [],
            defaultReaders := DEFAULT_READERS_BY_MIMETYPE, mimetypesByFileExt := [],
            guessType := fun p => if p = "root/b.csv" then some "text/csv" else none }
          (FsTree.node ["a.mystery", "b.csv"] .nil)).index r').isSome = true) ∧
      (∀ g e, g ∈ ["a.mystery", "b.csv"] →
        readerFactoryForFile
          { directory := "root", readersByMimetype := [],
            defaultReaders := DEFAULT_READERS_BY_MIMETYPE, mimetypesByFileExt := [],
            guessType := fun p => if p = "root/b.csv" then some "text/csv" else none }
          [] g = .ok e →
        alistLookup nm g = some e) :=
  c7_unresolved_file_skipped_scan_continues
    { directory := "root", readersByMimetype := [],
      defaultReaders := DEFAULT_READERS_BY_MIMETYPE, mimetypesByFileExt := [],
      guessType := fun p => if p = "root/b.csv" then some "text/csv" else none }
    (FsTree.node ["a.mystery", "b.csv"] .nil) [] ["a.mystery", "b.csv"] .nil
    "a.mystery" (ScanWarning.unrecognizedExtension "root/a.mystery" ".mystery")
    (by decide) rfl (by decide) (by decide)

end Tiled
